import Mathlib

/-!
Verification of the log-to-metrics aggregation pipeline of the
claude-usage-visualizer repository (src/claude-analyzer-v2.py and
src/analyze_claude_usage.py), as a shallow embedding in Lean.

Conventions of the embedding:
- Python dictionaries coming from JSON log lines are embedded as structures
  with Option-typed fields (none = key missing).
- The ambient clock read by datetime.now(timezone.utc) is passed explicitly
  as an integer "now" (seconds since the Unix epoch).
- Python string operations (len, slicing, lower, replace, lexicographic
  comparison by code point) map to the corresponding Lean String operations;
  the Lean linear order on String is lexicographic on code points, matching
  Python string comparison.
- Timestamp parsing models datetime.fromisoformat for strings of the exact
  shape YYYY-MM-DDTHH:MM:SS followed by an optional UTC offset +HH:MM or
  -HH:MM (fractional seconds are not modelled).  A parsed value without an
  offset is "naive": subtracting it from an aware datetime raises in Python
  and is caught by the bare except of the status classifier, which is why
  the epoch-producing parser returns none for naive strings.
-/

namespace ClaudeUsage

/-! ## Raw data model (one parsed JSON log entry) -/

/-- Token usage block of an assistant message (message.usage).  The model
carries `some u` exactly when the usage key is present with a non-empty
dictionary; Python treats both a missing key and an empty dictionary as
falsy at the read site. -/
structure Usage where
  input_tokens : Option Nat
  output_tokens : Option Nat
deriving Repr, DecidableEq

/-- One element of an assistant message.content list.  Dictionaries of type
"text" and "tool_use" carry the fields the code reads; every other element
(non-dictionary values or dictionaries of another type) is `other`. -/
inductive ContentPart where
  | text (t : Option String)
  | toolUse (name : Option String)
  | other
deriving Repr, DecidableEq

/-- Value of a message.content key: a JSON string or a list of parts. -/
inductive MsgContent where
  | str (s : String)
  | parts (l : List ContentPart)
deriving Repr, DecidableEq

/-- Nested message object of a raw entry. -/
structure RawMessage where
  content : Option MsgContent
  model : Option String
  usage : Option Usage
deriving Repr, DecidableEq

/-- One raw log entry (one JSONL line), with all fields optional. -/
structure RawEntry where
  sessionId : Option String
  type : Option String
  timestamp : Option String
  message : Option RawMessage
deriving Repr, DecidableEq

/-- Python entry.get("message", dict()) — a missing message behaves as an
empty dictionary. -/
def RawEntry.msg (e : RawEntry) : RawMessage :=
  e.message.getD ⟨none, none, none⟩

/-! ## Normalized data model -/

/-- Normalized message record built by the reconstruction loop. -/
structure Message where
  role : String
  content : MsgContent
  timestamp : Option String
  tokens : Nat
deriving Repr, DecidableEq

/-- Reconstructed conversation record. -/
structure Conversation where
  id : String
  file_path : String
  messages : List Message
  total_tokens : Nat
  model : String
  created_at : Option String
  last_activity : Option String
  status : String
  project_context : String
deriving Repr, DecidableEq

/-! ## Python string helpers -/

/-- Python str() applied to a message content value.  A string renders as
itself; a part list renders in Python repr style over the modelled fields
(the code only ever takes the length or a lowercase search of this
rendering, and no theorem below depends on its exact text). -/
def pyReprPart : ContentPart → String
  | .text none => "\x7b'type': 'text'\x7d"
  | .text (some t) => "\x7b'type': 'text', 'text': '" ++ t ++ "'\x7d"
  | .toolUse none => "\x7b'type': 'tool_use'\x7d"
  | .toolUse (some n) => "\x7b'type': 'tool_use', 'name': '" ++ n ++ "'\x7d"
  | .other => "\x7b\x7d"

/-- Python str() of a content value. -/
def pyStr : MsgContent → String
  | .str s => s
  | .parts l => "[" ++ String.intercalate ", " (l.map pyReprPart) ++ "]"

/-- Python truthiness of a content value ("if not text"): the empty string
and the empty list are falsy. -/
def contentFalsy : MsgContent → Bool
  | .str s => s = ""
  | .parts l => l.isEmpty

/-- Substring check on character lists (Python "needle in haystack"). -/
def charsContain (needle : List Char) : List Char → Bool
  | [] => needle.isEmpty
  | c :: cs => needle.isPrefixOf (c :: cs) || charsContain needle cs

/-- Python "needle in haystack" on strings. -/
def strContains (haystack needle : String) : Bool :=
  charsContain needle.data haystack.data

/-- Code-point comparison of characters, as Python compares strings. -/
def charLt (a b : Char) : Bool := a.toNat < b.toNat

/-- Lexicographic code-point comparison of character lists. -/
def charsLt : List Char → List Char → Bool
  | _, [] => false
  | [], _ :: _ => true
  | a :: as, b :: bs => charLt a b || (a = b && charsLt as bs)

/-- Python string less-than: lexicographic on code points. -/
def strLtB (a b : String) : Bool := charsLt a.data b.data

/-- Python str.replace for a one-character pattern (every replace performed
by the code — Z in timestamps, and the newline, carriage-return and tab
escapes of the dashboard clean-up — has a one-character pattern). -/
def replaceChar (pat : Char) (rep : List Char) : List Char → List Char
  | [] => []
  | c :: cs => if c = pat then rep ++ replaceChar pat rep cs else c :: replaceChar pat rep cs

/-- String form of the one-character-pattern replace. -/
def pyReplaceChar (s : String) (pat : Char) (rep : String) : String :=
  ⟨replaceChar pat rep.data s.data⟩

/-- Python str.lower (ASCII range; no keyword of the classifier leaves
ASCII). -/
def pyLower (s : String) : String := ⟨s.data.map Char.toLower⟩

/-- Python truthiness of line.strip(): true when every character is
whitespace, so the stripped line is empty. -/
def pyBlank (s : String) : Bool := s.data.all Char.isWhitespace

/-! ## Timestamp parsing (datetime.fromisoformat) -/

/-- Decimal value of a digit character, none for non-digits. -/
def digitVal (c : Char) : Option Nat :=
  if c.isDigit then some (c.toNat - 48) else none

/-- Two-digit decimal number. -/
def num2 (a b : Char) : Option Nat := do
  pure ((← digitVal a) * 10 + (← digitVal b))

/-- Four-digit decimal number. -/
def num4 (a b c d : Char) : Option Nat := do
  pure (((← digitVal a) * 10 + (← digitVal b)) * 100 + ((← digitVal c) * 10 + (← digitVal d)))

/-- Civil timestamp fields as parsed by datetime.fromisoformat; `off` is the
UTC offset in seconds (none for a naive timestamp). -/
structure TsParts where
  year : Nat
  month : Nat
  day : Nat
  hour : Nat
  minute : Nat
  second : Nat
  off : Option Int
deriving Repr, DecidableEq

/-- Number of days in a month of a given year (Gregorian). -/
def daysInMonth (y m : Nat) : Nat :=
  if m = 2 then
    if y % 4 = 0 ∧ (y % 100 ≠ 0 ∨ y % 400 = 0) then 29 else 28
  else if m = 4 ∨ m = 6 ∨ m = 9 ∨ m = 11 then 30
  else 31

/-- Range validity of parsed civil fields, as checked by fromisoformat. -/
def validParts (p : TsParts) : Bool :=
  1 ≤ p.month && p.month ≤ 12 && 1 ≤ p.day && p.day ≤ daysInMonth p.year p.month
    && p.hour ≤ 23 && p.minute ≤ 59 && p.second ≤ 59

/-- Parse the UTC offset suffix: empty (naive), or a sign with HH:MM. -/
def parseOffset : List Char → Option (Option Int)
  | [] => some none
  | [sg, h1, h2, ':', m1, m2] => do
      let sgn : Int ← match sg with
        | '+' => some 1
        | '-' => some (-1)
        | _ => none
      let oh ← num2 h1 h2
      let om ← num2 m1 m2
      if oh ≤ 23 ∧ om ≤ 59 then
        pure (some (sgn * ((oh : Int) * 3600 + (om : Int) * 60)))
      else none
  | _ => none

/-- Parse an ISO-8601 timestamp string of the shape
YYYY-MM-DDTHH:MM:SS[±HH:MM] into its civil fields. -/
def parseIso (s : String) : Option TsParts :=
  match s.data with
  | y1 :: y2 :: y3 :: y4 :: '-' :: mo1 :: mo2 :: '-' :: d1 :: d2 :: 'T' ::
    h1 :: h2 :: ':' :: mi1 :: mi2 :: ':' :: s1 :: s2 :: rest => do
      let y ← num4 y1 y2 y3 y4
      let mo ← num2 mo1 mo2
      let d ← num2 d1 d2
      let h ← num2 h1 h2
      let mi ← num2 mi1 mi2
      let se ← num2 s1 s2
      let off ← parseOffset rest
      let p : TsParts := ⟨y, mo, d, h, mi, se, off⟩
      if validParts p then pure p else none
  | _ => none

/-- Days from 1970-01-01 to the given civil date (Gregorian, y ≥ 1). -/
def daysFromCivil (y m d : Nat) : Int :=
  let y' := if m ≤ 2 then y - 1 else y
  let era := y' / 400
  let yoe := y' % 400
  let doy := (153 * (m + (if m > 2 then 0 else 12) - 3) + 2) / 5 + d - 1
  let doe := yoe * 365 + yoe / 4 - yoe / 100 + doy
  (era * 146097 + doe : Int) - 719468

/-- Seconds since the Unix epoch of the civil fields read as UTC (the offset
field is not applied here). -/
def naiveEpoch (p : TsParts) : Int :=
  daysFromCivil p.year p.month p.day * 86400
    + (p.hour * 3600 + p.minute * 60 + p.second : Nat)

/-- Epoch seconds of an aware timestamp string, after the Z → +00:00
substitution the code performs; none when the string does not parse or is
naive (a naive value makes the subtraction against an aware now raise in
Python, which the caller catches). -/
def parseTimestamp (s : String) : Option Int :=
  match parseIso (pyReplaceChar s 'Z' "+00:00") with
  | some p =>
      match p.off with
      | some o => some (naiveEpoch p - o)
      | none => none
  | none => none

/-- Calendar-date key of a timestamp string: the date() of the fromisoformat
value formatted as YYYY-MM-DD (zero padded).  Defined for naive and aware
strings alike, as in the daily-usage bucketing. -/
def pad2 (n : Nat) : String :=
  if n < 10 then "0" ++ Nat.repr n else Nat.repr n

/-- Zero-padded four-digit year. -/
def pad4 (n : Nat) : String :=
  if n < 10 then "000" ++ Nat.repr n
  else if n < 100 then "00" ++ Nat.repr n
  else if n < 1000 then "0" ++ Nat.repr n
  else Nat.repr n

/-- Date key (strftime "%Y-%m-%d") of a timestamp string, after the
Z → +00:00 substitution; none when parsing fails. -/
def dateKeyOf (s : String) : Option String :=
  (parseIso (pyReplaceChar s 'Z' "+00:00")).map fun p =>
    pad4 p.year ++ "-" ++ pad2 p.month ++ "-" ++ pad2 p.day

/-! ## Token estimation (estimate_tokens) -/

/-- Rough token estimation: 0 for falsy content, otherwise
len(str(text)) // 4. -/
def estimate_tokens (c : MsgContent) : Nat :=
  if contentFalsy c then 0 else (pyStr c).length / 4

/-! ## Per-entry normalization (body of the process_session_entries loop) -/

/-- Content of the "[Tool: name]" marker line. -/
def toolMarker (name : Option String) : String :=
  "[Tool: " ++ name.getD "unknown_tool" ++ "]"

/-- Assistant content flattening: walk the part list accumulating the text
of text parts and a tool marker for tool_use parts, then join by newline. -/
def flattenParts (l : List ContentPart) : String :=
  String.intercalate "\n"
    (l.foldl (fun acc p =>
      match p with
      | .text t => acc ++ [t.getD ""]
      | .toolUse n => acc ++ [toolMarker n]
      | .other => acc) [])

/-- Role tag of a normalized message: the user and assistant branches set
it explicitly, any other entry keeps the initial entry.get("type",
"unknown"). -/
def entryRole (e : RawEntry) : String :=
  if e.type = some "user" then "user"
  else if e.type = some "assistant" then "assistant"
  else e.type.getD "unknown"

/-- Content of a normalized message: user entries store message.content
as-is (empty string when missing); assistant entries flatten a list
content and keep a string content verbatim (a missing content key defaults
to the empty list); entries of any other type keep the initial empty
string. -/
def entryContent (e : RawEntry) : MsgContent :=
  if e.type = some "user" then e.msg.content.getD (.str "")
  else if e.type = some "assistant" then
    match e.msg.content.getD (.parts []) with
    | .parts l => .str (flattenParts l)
    | .str s => .str s
  else .str ""

/-- Usage-derived token count before the estimation fallback: only the
assistant branch reads message.usage (missing fields default to 0); every
other entry leaves the initial 0. -/
def entryUsageTokens (e : RawEntry) : Nat :=
  if e.type = some "assistant" then
    match e.msg.usage with
    | some u => u.input_tokens.getD 0 + u.output_tokens.getD 0
    | none => 0
  else 0

/-- Normalize one raw entry into a message record, translating the body of
the for-loop of process_session_entries: role, content and usage tokens as
above, and the estimation fallback whenever the token count is still
zero. -/
def normalizeEntry (e : RawEntry) : Message :=
  { role := entryRole e
    content := entryContent e
    timestamp := e.timestamp
    tokens :=
      if entryUsageTokens e = 0 then estimate_tokens (entryContent e)
      else entryUsageTokens e }

/-! ## Stable sort by string key (Python list.sort with a key function) -/

/-- Insert an element into an already sorted list, after every element whose
key is not greater (keeping the insertion stable). -/
def insertByKey (key : α → String) : List α → α → List α
  | [], x => [x]
  | y :: ys, x => if strLtB (key x) (key y) then x :: y :: ys else y :: insertByKey key ys x

/-- Stable ascending sort by a string key. -/
def sortByKey (key : α → String) (l : List α) : List α :=
  l.foldl (insertByKey key) []

/-- Insert for the descending variant (sorted(..., reverse=True)). -/
def insertByKeyDesc (key : α → String) : List α → α → List α
  | [], x => [x]
  | y :: ys, x => if strLtB (key y) (key x) then x :: y :: ys else y :: insertByKeyDesc key ys x

/-- Stable descending sort by a string key. -/
def sortByKeyDesc (key : α → String) (l : List α) : List α :=
  l.foldl (insertByKeyDesc key) []

/-! ## Status and project-context classification -/

/-- Conversation status from recency (determine_conversation_status).  The
code computes time_diff.seconds, the seconds component of the Python
timedelta, which equals the total difference modulo 86400 with the sign
convention of Python floor division — Int.emod matches it exactly. -/
def determine_conversation_status (now : Int) (conv : Conversation) : String :=
  match conv.last_activity with
  | none => "unknown"
  | some la =>
    if la = "" then "unknown"
    else
      match parseTimestamp la with
      | none => "unknown"
      | some t =>
        let secs := (now - t).emod 86400
        if secs < 300 then "active"
        else if secs < 3600 then "recent"
        else "inactive"

/-- Keyword table of extract_project_context, in source order. -/
def projectRules : List (String × List String) :=
  [ ("python", ["python", ".py", "import ", "def "])
  , ("javascript", ["javascript", ".js", "npm", "node"])
  , ("react", ["react", "jsx", "component"])
  , ("web", ["html", "css", "web", "website"])
  , ("debugging", ["debug", "error", "bug", "fix"])
  , ("data", ["data", "analysis", "csv", "pandas"]) ]

/-- Project label from the first 3 messages (first 500 characters of the
str() of each), lowercased, first matching rule wins, default general. -/
def extract_project_context (conv : Conversation) : String :=
  let sample := String.join ((conv.messages.take 3).map fun m => (pyStr m.content).take 500)
  let lower := pyLower sample
  (projectRules.foldr
    (fun (rule : String × List String) acc =>
      if rule.2.any (fun term => strContains lower term) then rule.1 else acc)
    "general")

/-! ## Session reconstruction (process_session_entries) -/

/-- Timestamp sort key: entry.get("timestamp", ""). -/
def tsKey (e : RawEntry) : String := e.timestamp.getD ""

/-- Truthy timestamp of an entry or message field: some for a present
non-empty string, none otherwise. -/
def truthyTs : Option String → Option String
  | some ts => if ts = "" then none else some ts
  | none => none

/-- Build one Conversation from the entries of a session: sort by raw
timestamp string, normalize each entry, fold the running model, token total
and first/last truthy timestamps, then classify status and context. -/
def process_session_entries (now : Int) (entries : List RawEntry)
    (session_id : String) (file_path : String) : Conversation :=
  let sorted := sortByKey tsKey entries
  let messages := sorted.map normalizeEntry
  let model := sorted.foldl
    (fun m e =>
      if e.type = some "assistant" then
        match e.msg.model with
        | some s => if s = "" then m else s
        | none => m
      else m)
    "unknown"
  let total_tokens := messages.foldl (fun t m => t + m.tokens) 0
  let created_at := messages.foldl
    (fun acc m =>
      match truthyTs m.timestamp with
      | some ts => if acc = none then some ts else acc
      | none => acc)
    none
  let last_activity := messages.foldl
    (fun acc m =>
      match truthyTs m.timestamp with
      | some ts => some ts
      | none => acc)
    none
  let conv : Conversation :=
    { id := session_id
      file_path := file_path
      messages := messages
      total_tokens := total_tokens
      model := model
      created_at := created_at
      last_activity := last_activity
      status := "completed"
      project_context := "unknown" }
  let conv := { conv with status := determine_conversation_status now conv }
  { conv with project_context := extract_project_context conv }

/-! ## Whole-file JSON conversations (process_conversation_file) -/

/-- One element of the messages list of a whole-file JSON conversation; the
model field is `some v` when the "model" key is present with string value v
(the code tests key presence, not truthiness, on this path). -/
structure JMsg where
  role : Option String
  content : Option MsgContent
  timestamp : Option String
  model : Option String
deriving Repr, DecidableEq

/-- Build one Conversation from a whole-file JSON message list (the shape
dispatch that extracts this list from a JSON array, an object with a
messages key, or a single object, is not modelled): messages keep file
order, every token count is estimated, and any message carrying a model key
overwrites the running model. -/
def process_conversation_file (now : Int) (msgs : List JMsg)
    (conversation_id : String) (file_path : String) : Conversation :=
  let messages := msgs.map fun m =>
    { role := m.role.getD "unknown"
      content := m.content.getD (.str "")
      timestamp := m.timestamp
      tokens := estimate_tokens (m.content.getD (.str "")) : Message }
  let model := msgs.foldl
    (fun acc m => match m.model with | some v => v | none => acc) "unknown"
  let total_tokens := messages.foldl (fun t m => t + m.tokens) 0
  let created_at := messages.foldl
    (fun acc m =>
      match truthyTs m.timestamp with
      | some ts => if acc = none then some ts else acc
      | none => acc)
    none
  let last_activity := messages.foldl
    (fun acc m =>
      match truthyTs m.timestamp with
      | some ts => some ts
      | none => acc)
    none
  let conv : Conversation :=
    { id := conversation_id
      file_path := file_path
      messages := messages
      total_tokens := total_tokens
      model := model
      created_at := created_at
      last_activity := last_activity
      status := "completed"
      project_context := "unknown" }
  let conv := { conv with status := determine_conversation_status now conv }
  { conv with project_context := extract_project_context conv }

/-! ## Line-delimited parsing and session grouping -/

/-- Result of json.loads on one stripped line: a JSON object (carrying the
modelled fields), a syntactically valid JSON value that is not an object
(number, string, array, null, boolean), or a JSONDecodeError. -/
inductive LineParse where
  | obj (e : RawEntry)
  | nonObj
  | fail
deriving Repr, DecidableEq

/-- One physical line of a JSONL file: its raw text and the result of
json.loads applied to the stripped text.  A blank line always strips to
the empty string, which json.loads rejects, so well-formed line models
satisfy pyBlank raw → parsed = fail. -/
structure Line where
  raw : String
  parsed : LineParse
deriving Repr, DecidableEq

/-- The entry of an object line. -/
def lineEntry : LineParse → Option RawEntry
  | .obj e => some e
  | .nonObj => none
  | .fail => none

/-- Whether the line held valid JSON that is not an object — the case in
which entry.get(...) raises AttributeError in the dashboard analyzer. -/
def isNonObj : LineParse → Bool
  | .nonObj => true
  | _ => false

/-- The parser of analyze_claude_usage.py (load_jsonl): strip each line,
skip blank lines, append every successfully parsed JSON value — object or
not — and warn and skip on a JSONDecodeError. -/
def load_jsonl (lines : List Line) : List LineParse :=
  lines.foldl
    (fun data l =>
      if pyBlank l.raw then data
      else
        match l.parsed with
        | .fail => data
        | v => data ++ [v])
    []

/-- Parsed object entries of a JSONL file in the dashboard analyzer, keyed
by their 1-based physical line number (enumerate(f, 1)); a line that fails
to decode is warned about and skipped. -/
def jsonlEntries (lines : List Line) : List (Nat × RawEntry) :=
  (List.enumFrom 1 lines).foldl
    (fun acc nl =>
      match lineEntry nl.2.parsed with
      | some e => acc ++ [(nl.1, e)]
      | none => acc)
    []

/-- Session key of a numbered entry:
entry.get("sessionId", f"session_\x7bline_num\x7d"). -/
def keyOf (x : Nat × RawEntry) : String :=
  x.2.sessionId.getD ("session_" ++ Nat.repr x.1)

/-- Append an entry to the group of the given key in an association list,
creating the group at the end when the key is new (defaultdict insertion
order). -/
def addToGroup : List (String × List RawEntry) → String → RawEntry →
    List (String × List RawEntry)
  | [], k, e => [(k, [e])]
  | (k0, es) :: rest, k, e =>
    if k0 = k then (k0, es ++ [e]) :: rest
    else (k0, es) :: addToGroup rest k e

/-- Group numbered entries by session key, preserving first-occurrence key
order and within-group entry order (conversations_by_session). -/
def groupBySession (es : List (Nat × RawEntry)) : List (String × List RawEntry) :=
  es.foldl (fun acc x => addToGroup acc (keyOf x) x.2) []

/-- The group stored under a key (empty when the key is absent). -/
def lookupGroup (gs : List (String × List RawEntry)) (k : String) : List RawEntry :=
  match gs.find? (fun g => g.1 = k) with
  | some g => g.2
  | none => []

/-- The dashboard analyzer JSONL path (process_jsonl_file): parse lines,
group by session key, build one conversation per group in key order.
Only a JSONDecodeError is caught inside the per-line loop; a line holding
valid JSON that is not an object makes entry.get raise AttributeError,
which propagates out of this function, so the whole file yields nothing —
modelled extensionally as an error result whenever any line parses to a
non-object. -/
def process_jsonl_file (now : Int) (lines : List Line) (file_path : String) :
    Except Unit (List Conversation) :=
  if lines.any (fun l => isNonObj l.parsed) then .error ()
  else .ok ((groupBySession (jsonlEntries lines)).map fun g =>
    process_session_entries now g.2 g.1 file_path)

/-- load_conversation_data over a list of JSONL files (name, lines): files
are processed one after the other, each contributing its own
conversations; an exception escaping one file is caught, skipping only
that file (the whole-file JSON route goes through
process_conversation_file and is modelled separately). -/
def load_conversation_data (now : Int) (files : List (String × List Line)) :
    List Conversation :=
  files.foldl
    (fun acc f =>
      match process_jsonl_file now f.2 f.1 with
      | .ok cs => acc ++ cs
      | .error _ => acc)
    []

/-! ## Aggregation (analyze_usage_patterns) -/

/-- Date bucket of a conversation for daily usage: a truthy created_at that
parses contributes its date key; a parse failure is skipped. -/
def convDateKey (c : Conversation) : Option String :=
  match c.created_at with
  | some s => if s = "" then none else dateKeyOf s
  | none => none

/-- Global usage statistics.  Counter and defaultdict values are embedded as
count functions (Python dict equality is extensional in keys and values, so
nothing is lost by dropping insertion order). -/
structure UsageStats where
  total_conversations : Nat
  total_messages : Nat
  total_tokens : Nat
  models : String → Nat
  projects : String → Nat
  daily_usage : String → Nat × Nat
  statuses : String → Nat
  avg_tokens_per_conversation : ℚ
  avg_messages_per_conversation : ℚ

/-- Occurrences of a value of a string-valued field among conversations. -/
def countBy (f : Conversation → String) (cs : List Conversation) : String → Nat :=
  fun v => (cs.filter (fun c => f c = v)).length

/-- The aggregation pass (analyze_usage_patterns).  Returns none on an empty
conversation list, where the code leaves usage_stats untouched. -/
def analyze_usage_patterns (cs : List Conversation) : Option UsageStats :=
  if cs.isEmpty then none
  else some
    { total_conversations := cs.length
      total_messages := (cs.map (fun c => c.messages.length)).sum
      total_tokens := (cs.map (fun c => c.total_tokens)).sum
      models := countBy (fun c => c.model) cs
      projects := countBy (fun c => c.project_context) cs
      daily_usage := fun d =>
        let bucket := cs.filter (fun c => convDateKey c = some d)
        (bucket.length, (bucket.map (fun c => c.total_tokens)).sum)
      statuses := countBy (fun c => c.status) cs
      avg_tokens_per_conversation :=
        ((cs.map (fun c => c.total_tokens)).sum : ℚ) / (max cs.length 1 : ℚ)
      avg_messages_per_conversation :=
        ((cs.map (fun c => c.messages.length)).sum : ℚ) / (max cs.length 1 : ℚ) }

/-! ## Dashboard generation (the data-mutating part of generate_enhanced_html) -/

/-- Sort key for the display list:
x.get("last_activity") or "1900-01-01T00:00:00Z". -/
def displayKey (c : Conversation) : String :=
  match c.last_activity with
  | some s => if s = "" then "1900-01-01T00:00:00Z" else s
  | none => "1900-01-01T00:00:00Z"

/-- The 50 most recently active conversations, most recent first. -/
def displayConversations (cs : List Conversation) : List Conversation :=
  (sortByKeyDesc displayKey cs).take 50

/-- Content clean-up applied in place by generate_enhanced_html: truncate
over-500-character content to 497 characters plus an ellipsis, then escape
newlines, carriage returns and tabs. -/
def clean_content (s : String) : String :=
  let s := if s.length > 500 then s.take 497 ++ "..." else s
  pyReplaceChar (pyReplaceChar (pyReplaceChar s '\n' "\\n") '\r' "\\r") '\t' "\\t"

/-- Effect of the clean-up loop on one conversation: every message content
is replaced by the cleaned string form; all other fields are untouched. -/
def cleanConversation (c : Conversation) : Conversation :=
  { c with messages := c.messages.map fun m =>
      { m with content := .str (clean_content (pyStr m.content)) } }

/-- Conversations as embedded in the dashboard after the clean-up loop ran
over the display list (the loop mutates the conversation records shared
with the analyzer state, so these changes are visible outside generation as
well). -/
def generateCleanup (cs : List Conversation) : List Conversation :=
  (displayConversations cs).map cleanConversation

/-! ## Specification-side definitions (used only in theorem statements) -/

/-- Rendered line of one content part, as the specification describes it:
text parts contribute their text (empty when the text field is missing),
tool_use parts contribute the bracketed marker, other parts are dropped. -/
def partLine : ContentPart → Option String
  | .text t => some (t.getD "")
  | .toolUse n => some (toolMarker n)
  | .other => none

/-- Usage-derived token count of an entry: input plus output tokens with
missing fields read as 0, and 0 when the usage block is absent. -/
def usageTokens (e : RawEntry) : Nat :=
  match e.msg.usage with
  | some u => u.input_tokens.getD 0 + u.output_tokens.getD 0
  | none => 0

/-- Non-empty model name of an assistant entry, none otherwise. -/
def assistantModel (e : RawEntry) : Option String :=
  if e.type = some "assistant" then
    match e.msg.model with
    | some s => if s = "" then none else some s
    | none => none
  else none

/-- Smallest string of a list under the code-point order (none when the
list is empty). -/
def minString (l : List String) : Option String :=
  l.foldl
    (fun acc s =>
      match acc with
      | none => some s
      | some t => some (if strLtB s t then s else t))
    none

/-- Largest string of a list under the code-point order (none when the list
is empty). -/
def maxString (l : List String) : Option String :=
  l.foldl
    (fun acc s =>
      match acc with
      | none => some s
      | some t => some (if strLtB t s then s else t))
    none

/-- Truthy timestamp of a raw entry. -/
def entryTs (e : RawEntry) : Option String := truthyTs e.timestamp

/-- Distinct session keys of a numbered entry list, in first-occurrence
order. -/
def sessionKeys (es : List (Nat × RawEntry)) : List String :=
  es.foldl (fun ks x => if keyOf x ∈ ks then ks else ks ++ [keyOf x]) []

/-- Status classification pass over a list of already reconstructed
conversations at a given current time. -/
def classifyAt (now : Int) (cs : List Conversation) : List Conversation :=
  cs.map fun c => { c with status := determine_conversation_status now c }

/-- Every UsageStats component except the status breakdown. -/
def statsNoStatus (u : UsageStats) :
    Nat × Nat × Nat × (String → Nat) × (String → Nat) × (String → Nat × Nat) × ℚ × ℚ :=
  (u.total_conversations, u.total_messages, u.total_tokens, u.models,
    u.projects, u.daily_usage, u.avg_tokens_per_conversation,
    u.avg_messages_per_conversation)

/-! ## Concrete inputs used by witnesses and counterexamples -/

/-- Entry of the valid line exercising the parser. -/
def c3entry : RawEntry := ⟨some "a", some "user", none, none⟩

/-- Three-line file: blank, invalid JSON, valid object entry. -/
def c3lines : List Line :=
  [⟨" ", .fail⟩, ⟨"not-json", .fail⟩, ⟨"ok", .obj c3entry⟩]

/-- Two-line file: a valid object line followed by a line holding the
valid JSON value 5, which is not an object. -/
def c3badlines : List Line := [⟨"ok", .obj c3entry⟩, ⟨"5", .nonObj⟩]

/-- User entry carrying a usage block (the claim predicts tokens 15). -/
def c1user : RawEntry :=
  ⟨none, some "user", none, some ⟨some (.str "hello world!"), none, some ⟨some 10, some 5⟩⟩⟩

/-- Assistant entry whose usage block sums to zero. -/
def c1asst : RawEntry :=
  ⟨none, some "assistant", none, some ⟨some (.str "12345678"), none, some ⟨some 0, some 0⟩⟩⟩

/-- Conversation whose last activity is 24 hours and 2 minutes before the
now used in the C2 divergence theorem. -/
def c2conv : Conversation :=
  { id := "x", file_path := "f", messages := [], total_tokens := 0,
    model := "unknown", created_at := none,
    last_activity := some "2024-01-01T00:00:00Z",
    status := "completed", project_context := "unknown" }

/-- Assistant entry whose content is a single Bash tool_use part. -/
def c5bash : RawEntry :=
  ⟨none, some "assistant", none, some ⟨some (.parts [.toolUse (some "Bash")]), none, none⟩⟩

/-- Assistant entry whose content is a plain string. -/
def c5str : RawEntry :=
  ⟨none, some "assistant", none, some ⟨some (.str "verbatim"), none, none⟩⟩

/-- User message of a whole-file JSON conversation carrying an empty model
key. -/
def c7msg : JMsg := ⟨some "user", some (.str "x"), none, some ""⟩

/-- Entry whose timestamp is behind UTC by five hours: it parses to a later
instant than c6b though its string sorts earlier. -/
def c6a : RawEntry :=
  ⟨some "s", some "user", some "2023-12-31T20:00:00-05:00",
    some ⟨some (.str "x"), none, none⟩⟩

/-- Entry with a Z-suffixed timestamp parsing to an earlier instant than
c6a. -/
def c6b : RawEntry :=
  ⟨some "s", some "user", some "2024-01-01T00:00:00Z",
    some ⟨some (.str "y"), none, none⟩⟩

/-- Entry with sessionId s and the given content. -/
def c4entry (c : String) : RawEntry :=
  ⟨some "s", some "user", none, some ⟨some (.str c), none, none⟩⟩

/-- Two files, each one line, both lines carrying sessionId s. -/
def c4files : List (String × List Line) :=
  [("f1", [⟨"x", .obj (c4entry "a")⟩]), ("f2", [⟨"x", .obj (c4entry "b")⟩])]

/-- A one-line file used by the C4 witness. -/
def c4lines : List Line := [⟨"x", .obj (c4entry "a")⟩]

/-- Entry without a sessionId. -/
def c10a : RawEntry := ⟨none, some "user", none, none⟩

/-- Entry whose explicit sessionId collides with the synthetic key of
line 1. -/
def c10b : RawEntry := ⟨some "session_1", some "user", none, none⟩

/-- Conversation holding one message whose content contains a newline, and
recent enough to be displayed. -/
def c8conv : Conversation :=
  { id := "c", file_path := "f",
    messages := [{ role := "user", content := .str "a\nb",
                   timestamp := some "2024-01-01T00:00:00Z", tokens := 1 }],
    total_tokens := 1, model := "unknown",
    created_at := some "2024-01-01T00:00:00Z",
    last_activity := some "2024-01-01T00:00:00Z",
    status := "inactive", project_context := "general" }

/-! # Theorems -/

/-! ## Generic fold shapes -/

/-- A fold that appends one element per some-result of f builds the
filterMap of f. -/
theorem foldl_append_filterMap {α β : Type _} (f : α → Option β)
    (step : List β → α → List β) (l : List α)
    (hstep : ∀ acc x, x ∈ l →
      step acc x = match f x with | some v => acc ++ [v] | none => acc) :
    ∀ acc0 : List β, l.foldl step acc0 = acc0 ++ l.filterMap f := by
  induction l with
  | nil => intro acc0; simp
  | cons a t ih =>
    intro acc0
    rw [List.foldl_cons, hstep acc0 a (by simp)]
    rw [ih fun acc x hx => hstep acc x (by simp [hx])]
    cases hfa : f a
    · simp [List.filterMap_cons, hfa]
    · simp [List.filterMap_cons, hfa]

/-- The length of a filterMap counts the elements on which f succeeds. -/
theorem length_filterMap_eq_countP {α β : Type _} (f : α → Option β) (l : List α) :
    (l.filterMap f).length = l.countP fun x => (f x).isSome := by
  induction l with
  | nil => rfl
  | cons a t ih =>
    cases hfa : f a <;>
      simp [List.filterMap_cons, hfa, List.countP_cons, ih]

/-- The optional last element of a cons list with a non-empty tail is the
one of the tail. -/
theorem getLast?_cons_of_ne_nil {α : Type _} (b : α) {t : List α} (ht : t ≠ []) :
    (b :: t).getLast? = t.getLast? := by
  cases t with
  | nil => exact absurd rfl ht
  | cons c u => exact List.getLast?_cons_cons

/-- A fold that overwrites its accumulator with every some-result of f ends
at the last such result. -/
theorem foldl_override_val {α β : Type _} (f : α → Option β) (step : β → α → β)
    (hstep : ∀ b x, step b x = match f x with | some v => v | none => b)
    (l : List α) : ∀ init : β,
    l.foldl step init = ((l.filterMap f).getLast?).getD init := by
  induction l with
  | nil => intro init; rfl
  | cons a t ih =>
    intro init
    rw [List.foldl_cons, hstep init a]
    cases hfa : f a
    · simp only [List.filterMap_cons, hfa, ih]
    · rename_i b
      rw [ih b]
      simp only [List.filterMap_cons, hfa]
      by_cases ht : t.filterMap f = []
      · simp [ht]
      · rw [getLast?_cons_of_ne_nil b ht]
        rcases hl : (t.filterMap f).getLast? with _ | v
        · exact absurd (List.getLast?_eq_none_iff.mp hl) ht
        · rfl

/-- A fold that overwrites an optional accumulator with every some-result
of f ends at the last such result (or the initial value when there is
none). -/
theorem foldl_override_opt {α β : Type _} (f : α → Option β)
    (step : Option β → α → Option β)
    (hstep : ∀ b x, step b x = match f x with | some v => some v | none => b)
    (l : List α) : ∀ init : Option β,
    l.foldl step init = match (l.filterMap f).getLast? with
      | some v => some v
      | none => init := by
  induction l with
  | nil => intro init; rfl
  | cons a t ih =>
    intro init
    rw [List.foldl_cons, hstep init a]
    cases hfa : f a
    · rw [ih init]; simp [List.filterMap_cons, hfa]
    · rename_i v
      rw [ih (some v)]
      simp only [List.filterMap_cons, hfa]
      by_cases ht : t.filterMap f = []
      · simp [ht]
      · rw [getLast?_cons_of_ne_nil v ht]
        rcases hl : (t.filterMap f).getLast? with _ | w
        · exact absurd (List.getLast?_eq_none_iff.mp hl) ht
        · rfl

/-- A fold that keeps the first some-result of f computes the head of the
filterMap of f. -/
theorem foldl_keep_first {α β : Type _} [DecidableEq β] (f : α → Option β)
    (step : Option β → α → Option β)
    (hstep : ∀ b x, step b x =
      match f x with
      | some v => if b = none then some v else b
      | none => b)
    (l : List α) :
    l.foldl step none = (l.filterMap f).head? := by
  suffices h : ∀ init : Option β,
      l.foldl step init = match init with
        | some v => some v
        | none => (l.filterMap f).head? by
    exact h none
  induction l with
  | nil => intro init; cases init <;> rfl
  | cons a t ih =>
    intro init
    rw [List.foldl_cons]
    cases init
    · cases hfa : f a
      · have hs : step none a = none := by rw [hstep]; simp [hfa]
        rw [hs, ih none]
        simp [List.filterMap_cons, hfa]
      · rename_i v
        have hs : step none a = some v := by rw [hstep]; simp [hfa]
        rw [hs, ih (some v)]
        simp [List.filterMap_cons, hfa]
    · rename_i w
      cases hfa : f a
      · have hs : step (some w) a = some w := by rw [hstep]; simp [hfa]
        rw [hs, ih (some w)]
      · rename_i v
        have hs : step (some w) a = some w := by rw [hstep]; simp [hfa]
        rw [hs, ih (some w)]

/-- Numbering the elements does not change a count over them. -/
theorem countP_enumFrom {α : Type _} (p : α → Bool) :
    ∀ (n : Nat) (l : List α),
      (List.enumFrom n l).countP (fun nl => p nl.2) = l.countP p := by
  intro n l
  induction l generalizing n with
  | nil => rfl
  | cons a t ih =>
    simp only [List.enumFrom, List.countP_cons]
    rw [ih (n + 1)]

/-! ## C3: one RawEntry per valid line, skips never abort -/

/-- C3 counterexample: a file holding one valid object line and one line
with the valid JSON value 5 (not an object).  The simple parser yields
both values, but the dashboard analyzer aborts the whole file — the
entry.get AttributeError is not caught per line — so the valid object
line contributes no entry either, against "exactly one RawEntry per
syntactically valid non-blank line, never aborting the file". -/
theorem C3_counterexample :
    (c3badlines.countP fun l => (lineEntry l.parsed).isSome) = 1 ∧
    process_jsonl_file 0 c3badlines "f" = .error () ∧
    load_jsonl c3badlines = [.obj c3entry, .nonObj] :=
  ⟨by decide, rfl, by decide⟩

/-- C3 amended: a JSONDecodeError on one line is caught in both parsers,
warned about, and skips only that line; the simple parser yields exactly
the per-line parse successes in order (one value per syntactically valid
non-blank line, object or not), and the dashboard analyzer yields one
numbered RawEntry per valid object line in order and — provided every
valid line is an object — builds its conversations from exactly those
entries; but a valid non-object line raises AttributeError there, aborting
the whole file (the caller catches it and skips the file). -/
theorem C3_parser_per_line (now : Int) (fp : String) (lines : List Line)
    (h : ∀ l ∈ lines, pyBlank l.raw → l.parsed = .fail) :
    load_jsonl lines =
      lines.filterMap (fun l =>
        match l.parsed with
        | .fail => none
        | v => some v) ∧
    jsonlEntries lines =
      (List.enumFrom 1 lines).filterMap
        (fun nl => (lineEntry nl.2.parsed).map fun e => (nl.1, e)) ∧
    (jsonlEntries lines).length =
      lines.countP (fun l => (lineEntry l.parsed).isSome) ∧
    ((lines.any fun l => isNonObj l.parsed) = false →
      process_jsonl_file now lines fp =
        .ok ((groupBySession (jsonlEntries lines)).map fun g =>
          process_session_entries now g.2 g.1 fp)) ∧
    ((lines.any fun l => isNonObj l.parsed) = true →
      process_jsonl_file now lines fp = .error ()) := by
  have h2 : jsonlEntries lines =
      (List.enumFrom 1 lines).filterMap
        (fun nl => (lineEntry nl.2.parsed).map fun e => (nl.1, e)) := by
    have := foldl_append_filterMap
      (fun nl : Nat × Line => (lineEntry nl.2.parsed).map fun e => (nl.1, e))
      (fun acc nl =>
        match lineEntry nl.2.parsed with
        | some e => acc ++ [(nl.1, e)]
        | none => acc)
      (List.enumFrom 1 lines) ?_ []
    · simpa [jsonlEntries] using this
    · intro acc x _
      cases hx : lineEntry x.2.parsed <;> simp [hx]
  refine ⟨?_, h2, ?_, ?_, ?_⟩
  · have := foldl_append_filterMap
      (fun l : Line =>
        match l.parsed with
        | .fail => none
        | v => some v)
      (fun data l =>
        if pyBlank l.raw then data
        else match l.parsed with
          | .fail => data
          | v => data ++ [v])
      lines ?_ []
    · simpa [load_jsonl] using this
    · intro acc x hx
      by_cases hb : pyBlank x.raw
      · dsimp only
        rw [if_pos hb, h x hx hb]
      · dsimp only
        rw [if_neg hb]
        cases x.parsed <;> rfl
  · rw [h2, length_filterMap_eq_countP]
    have : ∀ nl : Nat × Line,
        ((lineEntry nl.2.parsed).map fun e => (nl.1, e)).isSome =
          (lineEntry nl.2.parsed).isSome := by
      intro nl
      cases lineEntry nl.2.parsed <;> rfl
    calc (List.enumFrom 1 lines).countP
          (fun nl => (((lineEntry nl.2.parsed).map fun e => (nl.1, e)).isSome : Bool))
        = (List.enumFrom 1 lines).countP
          (fun nl => ((lineEntry nl.2.parsed).isSome : Bool)) := by
          refine List.countP_congr fun nl _ => ?_
          rw [this nl]
      _ = lines.countP (fun l => (lineEntry l.parsed).isSome) :=
          countP_enumFrom (fun l => (lineEntry l.parsed).isSome) 1 lines
  · intro hno
    unfold process_jsonl_file
    rw [hno]
    rfl
  · intro hyes
    unfold process_jsonl_file
    rw [hyes]
    rfl

/-- C3 witness: a file of a blank line, an invalid line and a valid object
line produces exactly one entry without aborting. -/
theorem C3_witness :
    (∀ l ∈ c3lines, pyBlank l.raw → l.parsed = .fail) ∧
    (load_jsonl c3lines =
      c3lines.filterMap (fun l =>
        match l.parsed with
        | .fail => none
        | v => some v) ∧
    jsonlEntries c3lines =
      (List.enumFrom 1 c3lines).filterMap
        (fun nl => (lineEntry nl.2.parsed).map fun e => (nl.1, e)) ∧
    (jsonlEntries c3lines).length =
      c3lines.countP (fun l => (lineEntry l.parsed).isSome) ∧
    ((c3lines.any fun l => isNonObj l.parsed) = false →
      process_jsonl_file 0 c3lines "f" =
        .ok ((groupBySession (jsonlEntries c3lines)).map fun g =>
          process_session_entries 0 g.2 g.1 "f")) ∧
    ((c3lines.any fun l => isNonObj l.parsed) = true →
      process_jsonl_file 0 c3lines "f" = .error ())) :=
  ⟨by decide, C3_parser_per_line 0 "f" c3lines (by decide)⟩

/-! ## C1: token derivation per message -/

/-- C1 counterexample: the claim says the usage rule applies to every
message regardless of role, and that estimation happens only when usage is
absent.  A user entry with usage 10+5 nevertheless gets estimated tokens 3,
and an assistant entry with usage 0+0 gets estimated tokens 2. -/
theorem C1_counterexample :
    c1user.msg.usage = some ⟨some 10, some 5⟩ ∧
    (normalizeEntry c1user).tokens = 3 ∧ (3 : Nat) ≠ 10 + 5 ∧
    c1asst.msg.usage = some ⟨some 0, some 0⟩ ∧
    (normalizeEntry c1asst).tokens = 2 ∧ (2 : Nat) ≠ 0 + 0 := by
  decide

/-- C1 amended: only assistant entries read the usage block, and whenever
the usage-derived count is zero (absent usage, usage summing to zero, or a
non-assistant role) the tokens are estimated from the normalized content;
the estimate of a string content is always len // 4 (non-negative in ℕ,
matching max(0, len // 4)). -/
theorem C1_token_rule (e : RawEntry) :
    ((normalizeEntry e).tokens =
      if e.type = some "assistant" ∧ usageTokens e ≠ 0 then usageTokens e
      else estimate_tokens (normalizeEntry e).content) ∧
    ∀ s, estimate_tokens (.str s) = s.length / 4 := by
  constructor
  · by_cases ha : e.type = some "assistant"
    · have husg : entryUsageTokens e = usageTokens e := by
        simp [entryUsageTokens, usageTokens, ha]
      by_cases hz : usageTokens e = 0
      · rw [if_neg (by simp [hz])]
        simp [normalizeEntry, husg, hz]
      · rw [if_pos ⟨ha, hz⟩]
        simp [normalizeEntry, husg, hz]
    · have h0 : entryUsageTokens e = 0 := by simp [entryUsageTokens, ha]
      rw [if_neg (by simp [ha])]
      simp [normalizeEntry, h0]
  · intro s
    by_cases hs : s = "" <;> simp [estimate_tokens, contentFalsy, pyStr, hs]

/-! ## C2: status classification -/

/-- C2 divergence witness: a conversation whose last activity is 24 hours
and 2 minutes (86520 seconds) before the current time is classified
active, because the code reads the seconds component of the timedelta
(86520 mod 86400 = 120 < 300) instead of the total difference; the claim
and the comments of the code say such a conversation is inactive. -/
theorem C2_seconds_component_divergence :
    parseTimestamp "2024-01-01T00:00:00Z" = some 1704067200 ∧
    determine_conversation_status (1704067200 + 86520) c2conv = "active" := by
  decide

/-! ## C5: assistant content flattening -/

/-- Flattening a part list appends one line per text or tool_use part, in
part order. -/
theorem flattenParts_eq_filterMap (l : List ContentPart) :
    flattenParts l = String.intercalate "\n" (l.filterMap partLine) := by
  unfold flattenParts
  congr 1
  have := foldl_append_filterMap partLine
    (fun acc p =>
      match p with
      | .text t => acc ++ [t.getD ""]
      | .toolUse n => acc ++ [toolMarker n]
      | .other => acc)
    l ?_ []
  · simpa using this
  · intro acc p _
    cases p <;> rfl

/-- C5: for an assistant entry, a list content normalizes to the
newline-join of one line per part — the text of each text part and a
bracketed tool marker for each tool_use part, in order; a string content is
used verbatim; a missing content key yields the empty string. -/
theorem C5_assistant_content (e : RawEntry) (h : e.type = some "assistant") :
    (∀ l, e.msg.content = some (.parts l) →
      (normalizeEntry e).content = .str (String.intercalate "\n" (l.filterMap partLine))) ∧
    (∀ s, e.msg.content = some (.str s) → (normalizeEntry e).content = .str s) ∧
    (e.msg.content = none → (normalizeEntry e).content = .str "") := by
  have hne : ¬ e.type = some "user" := by rw [h]; simp
  refine ⟨?_, ?_, ?_⟩
  · intro l hl
    simp [normalizeEntry, entryContent, hne, h, hl, flattenParts_eq_filterMap]
  · intro s hs
    simp [normalizeEntry, entryContent, hne, h, hs]
  · intro hn
    simp only [normalizeEntry, entryContent, if_neg hne, if_pos h, hn,
      Option.getD_none, flattenParts_eq_filterMap]
    rfl

/-- C5 witness: an assistant message with a single tool_use part named Bash
and no text part produces content exactly "[Tool: Bash]"; a plain-string
content is verbatim. -/
theorem C5_witness :
    c5bash.type = some "assistant" ∧
    (normalizeEntry c5bash).content = .str "[Tool: Bash]" ∧
    c5str.type = some "assistant" ∧
    (normalizeEntry c5str).content = .str "verbatim" := by
  refine ⟨rfl, ?_, rfl, ?_⟩
  · have h := (C5_assistant_content c5bash rfl).1 [.toolUse (some "Bash")] rfl
    rw [h]; decide
  · exact (C5_assistant_content c5str rfl).2.1 "verbatim" rfl

/-! ## C7: conversation model field -/

/-- C7 counterexample: in the whole-file JSON path, a conversation whose
only message is user-typed with an empty model string ends with model ""
rather than the default "unknown" — a non-assistant message with an empty
model name did set the conversation model, against the claim. -/
theorem C7_counterexample :
    (process_conversation_file 0 [c7msg] "c1" "f").model = "" ∧
    ("" : String) ≠ "unknown" := by
  decide

/-- C7 amended: in the JSONL path the conversation model is the last-seen
non-empty model among assistant entries in timestamp-sorted order (default
"unknown"); in the whole-file JSON path it is the model value of the last
message carrying a model key, regardless of role or emptiness. -/
theorem C7_model_last_seen :
    (∀ (now : Int) (entries : List RawEntry) (sid fp : String),
      (process_session_entries now entries sid fp).model =
        (((sortByKey tsKey entries).filterMap assistantModel).getLast?).getD "unknown") ∧
    (∀ (now : Int) (msgs : List JMsg) (cid fp : String),
      (process_conversation_file now msgs cid fp).model =
        ((msgs.filterMap JMsg.model).getLast?).getD "unknown") := by
  constructor
  · intro now entries sid fp
    have hfold := foldl_override_val assistantModel
      (fun m e =>
        if e.type = some "assistant" then
          match e.msg.model with
          | some s => if s = "" then m else s
          | none => m
        else m)
      ?_ (sortByKey tsKey entries) "unknown"
    · simpa [process_session_entries] using hfold
    · intro b x
      by_cases hx : x.type = some "assistant"
      · cases hm : x.msg.model with
        | none => simp [assistantModel, hx, hm]
        | some s =>
          by_cases hs : s = "" <;> simp [assistantModel, hx, hm, hs]
      · simp [assistantModel, hx]
  · intro now msgs cid fp
    have hfold := foldl_override_val JMsg.model
      (fun acc m => match m.model with | some v => v | none => acc)
      ?_ msgs "unknown"
    · simpa [process_conversation_file] using hfold
    · intro b x
      cases hm : x.model <;> simp [hm]

/-! ## C8: mutation during dashboard generation -/

/-- C8 counterexample: dashboard generation rewrites message content of the
displayed conversations — a content "a\nb" becomes "a\\nb", so messages
are not immutable after classification. -/
theorem C8_counterexample :
    c8conv.messages.map Message.content = [.str "a\nb"] ∧
    (generateCleanup [c8conv]).map (fun c => c.messages.map Message.content) =
      [[.str "a\\nb"]] ∧
    MsgContent.str "a\\nb" ≠ MsgContent.str "a\nb" := by
  decide

/-- C8 amended: after classification, the only post-hoc modification is the
dashboard clean-up, which rewrites each displayed message content to
clean_content(str(content)) — truncation past 500 characters and escaping
of newline, carriage return and tab — while preserving every message role,
timestamp and token count and every other conversation field; the clean-up
runs exactly over the 50 most recently active conversations. -/
theorem C8_cleanup_preserves_all_but_content (c : Conversation) :
    (cleanConversation c).id = c.id ∧
    (cleanConversation c).file_path = c.file_path ∧
    (cleanConversation c).total_tokens = c.total_tokens ∧
    (cleanConversation c).model = c.model ∧
    (cleanConversation c).created_at = c.created_at ∧
    (cleanConversation c).last_activity = c.last_activity ∧
    (cleanConversation c).status = c.status ∧
    (cleanConversation c).project_context = c.project_context ∧
    (cleanConversation c).messages.map Message.role = c.messages.map Message.role ∧
    (cleanConversation c).messages.map Message.timestamp =
      c.messages.map Message.timestamp ∧
    (cleanConversation c).messages.map Message.tokens = c.messages.map Message.tokens ∧
    (cleanConversation c).messages.map Message.content =
      c.messages.map (fun m => .str (clean_content (pyStr m.content))) ∧
    ∀ cs : List Conversation,
      generateCleanup cs = ((sortByKeyDesc displayKey cs).take 50).map cleanConversation := by
  refine ⟨rfl, rfl, rfl, rfl, rfl, rfl, rfl, rfl, ?_, ?_, ?_, ?_, fun cs => rfl⟩
  all_goals simp [cleanConversation]

/-! ## C9: aggregation depends on time only through status -/

/-- Aggregation congruence: a per-conversation rewrite that preserves
messages, token totals, model, project context and creation timestamp
leaves every UsageStats component except the status breakdown unchanged. -/
theorem analyze_statsNoStatus_congr (cs : List Conversation)
    (g : Conversation → Conversation)
    (hmsgs : ∀ c, (g c).messages = c.messages)
    (htok : ∀ c, (g c).total_tokens = c.total_tokens)
    (hmodel : ∀ c, (g c).model = c.model)
    (hproj : ∀ c, (g c).project_context = c.project_context)
    (hcreated : ∀ c, (g c).created_at = c.created_at) :
    (analyze_usage_patterns (cs.map g)).map statsNoStatus =
      (analyze_usage_patterns cs).map statsNoStatus := by
  have hdate : ∀ c, convDateKey (g c) = convDateKey c := by
    intro c; unfold convDateKey; rw [hcreated c]
  have hlen : (cs.map g).length = cs.length := cs.length_map g
  have hmsum : ((cs.map g).map fun c => c.messages.length).sum =
      (cs.map fun c => c.messages.length).sum := by
    rw [List.map_map]
    congr 1
    exact List.map_congr_left fun c _ => by simp [hmsgs c]
  have htsum : ((cs.map g).map fun c => c.total_tokens).sum =
      (cs.map fun c => c.total_tokens).sum := by
    rw [List.map_map]
    congr 1
    exact List.map_congr_left fun c _ => by simp [htok c]
  have hcount : ∀ (f : Conversation → String), (∀ c, f (g c) = f c) →
      countBy f (cs.map g) = countBy f cs := by
    intro f hf
    funext v
    unfold countBy
    rw [List.filter_map, List.length_map]
    congr 1
    exact List.filter_congr fun c _ => by simp [Function.comp, hf c]
  have hbucket : ∀ d, (cs.map g).filter (fun c => convDateKey c = some d) =
      (cs.filter fun c => convDateKey c = some d).map g := by
    intro d
    rw [List.filter_map]
    congr 1
    exact List.filter_congr fun c _ => by simp [Function.comp, hdate c]
  have hqtok : (cs.map g).map (fun c => (c.total_tokens : ℚ)) =
      cs.map fun c => (c.total_tokens : ℚ) := by
    rw [List.map_map]
    exact List.map_congr_left fun c _ => by simp [htok c]
  have hqmsg : (cs.map g).map (fun c => (c.messages.length : ℚ)) =
      cs.map fun c => (c.messages.length : ℚ) := by
    rw [List.map_map]
    exact List.map_congr_left fun c _ => by simp [hmsgs c]
  unfold analyze_usage_patterns
  by_cases hcs : cs.isEmpty
  · have : (cs.map g).isEmpty := by
      cases cs with
      | nil => rfl
      | cons a t => simp at hcs
    rw [if_pos hcs, if_pos this]
  · have hmape : ¬ (cs.map g).isEmpty := by
      cases cs with
      | nil => exact absurd rfl hcs
      | cons a t => simp
    rw [if_neg hcs, if_neg hmape]
    refine congrArg some ?_
    simp only [statsNoStatus, Prod.mk.injEq]
    refine ⟨hlen, hmsum, htsum, hcount _ hmodel, hcount _ hproj, ?_, ?_, ?_⟩
    · funext d
      rw [hbucket d, List.length_map, List.map_map]
      refine congrArg (Prod.mk _) ?_
      congr 1
      exact List.map_congr_left fun c _ => by simp [htok c]
    · rw [hqtok, hlen]
    · rw [hqmsg, hlen]

/-- C9: aggregation is a pure function of the classified conversations, and
the current time can influence it only through the status field written by
classification: aggregating the same conversations classified at two
different times yields identical UsageStats in every component except the
status breakdown. -/
theorem C9_aggregation_time_independent (cs : List Conversation) (n1 n2 : Int) :
    (analyze_usage_patterns (classifyAt n1 cs)).map statsNoStatus =
      (analyze_usage_patterns (classifyAt n2 cs)).map statsNoStatus := by
  have h1 := analyze_statsNoStatus_congr cs
    (fun c => { c with status := determine_conversation_status n1 c })
    (fun c => rfl) (fun c => rfl) (fun c => rfl) (fun c => rfl) (fun c => rfl)
  have h2 := analyze_statsNoStatus_congr cs
    (fun c => { c with status := determine_conversation_status n2 c })
    (fun c => rfl) (fun c => rfl) (fun c => rfl) (fun c => rfl) (fun c => rfl)
  unfold classifyAt
  rw [h1, h2]

/-! ## Code-point string order: basic facts -/

/-- Character comparison is irreflexive. -/
theorem charLt_irrefl (a : Char) : charLt a a = false := by simp [charLt]

/-- Character comparison is transitive. -/
theorem charLt_trans {a b c : Char} (h1 : charLt a b = true) (h2 : charLt b c = true) :
    charLt a c = true := by
  simp only [charLt, decide_eq_true_eq] at h1 h2 ⊢
  exact Nat.lt_trans h1 h2

/-- Characters that compare less-than in neither direction are equal. -/
theorem charEq_of_not_lt {a b : Char} (h1 : charLt a b = false) (h2 : charLt b a = false) :
    a = b := by
  simp only [charLt, decide_eq_false_iff_not, Nat.not_lt] at h1 h2
  exact Char.ext (UInt32.ext (Nat.le_antisymm h2 h1))

/-- Lexicographic comparison is irreflexive. -/
theorem charsLt_irrefl (l : List Char) : charsLt l l = false := by
  induction l with
  | nil => rfl
  | cons a as ih => simp [charsLt, charLt_irrefl, ih]

/-- Lexicographic comparison is transitive. -/
theorem charsLt_trans : ∀ {a b c : List Char},
    charsLt a b = true → charsLt b c = true → charsLt a c = true := by
  intro a b c h1 h2
  induction a generalizing b c with
  | nil =>
    cases c with
    | nil => cases b <;> simp [charsLt] at h2
    | cons z zs => rfl
  | cons x xs ih =>
    cases b with
    | nil => simp [charsLt] at h1
    | cons y ys =>
      cases c with
      | nil => simp [charsLt] at h2
      | cons z zs =>
        simp only [charsLt, Bool.or_eq_true, Bool.and_eq_true, decide_eq_true_eq] at h1 h2 ⊢
        rcases h1 with h1 | ⟨rfl, h1⟩ <;> rcases h2 with h2 | ⟨rfl, h2⟩
        · exact Or.inl (charLt_trans h1 h2)
        · exact Or.inl h1
        · exact Or.inl h2
        · exact Or.inr ⟨rfl, ih h1 h2⟩

/-- Character lists that compare less-than in neither direction are
equal. -/
theorem charsLt_eq_of_not : ∀ {a b : List Char},
    charsLt a b = false → charsLt b a = false → a = b := by
  intro a b h1 h2
  induction a generalizing b with
  | nil =>
    cases b with
    | nil => rfl
    | cons y ys => simp [charsLt] at h1
  | cons x xs ih =>
    cases b with
    | nil => simp [charsLt] at h2
    | cons y ys =>
      simp only [charsLt, Bool.or_eq_false_iff, Bool.and_eq_false_iff,
        decide_eq_false_iff_not] at h1 h2
      have hx : x = y := charEq_of_not_lt h1.1 h2.1
      subst hx
      rcases h1.2 with hne | hxs
      · exact absurd rfl hne
      · rcases h2.2 with hne | hys
        · exact absurd rfl hne
        · rw [ih hxs hys]

/-- String comparison is irreflexive. -/
theorem strLtB_irrefl (s : String) : strLtB s s = false := charsLt_irrefl s.data

/-- String comparison is transitive. -/
theorem strLtB_trans {a b c : String} (h1 : strLtB a b = true) (h2 : strLtB b c = true) :
    strLtB a c = true := charsLt_trans h1 h2

/-- Strings that compare less-than in neither direction are equal. -/
theorem strLtB_eq_of_not {a b : String} (h1 : strLtB a b = false)
    (h2 : strLtB b a = false) : a = b :=
  String.ext (charsLt_eq_of_not h1 h2)

/-! ## Stable key sort: permutation and sortedness -/

/-- Inserting permutes to consing. -/
theorem insertByKey_perm {α : Type _} (key : α → String) (l : List α) (x : α) :
    List.Perm (insertByKey key l x) (x :: l) := by
  induction l with
  | nil => exact List.Perm.refl _
  | cons y ys ih =>
    unfold insertByKey
    by_cases h : strLtB (key x) (key y) = true
    · rw [if_pos h]
    · rw [if_neg h]
      exact (List.Perm.cons y ih).trans (List.Perm.swap x y ys)

/-- The key sort permutes its input. -/
theorem sortByKey_perm {α : Type _} (key : α → String) (l : List α) :
    List.Perm (sortByKey key l) l := by
  suffices h : ∀ (l acc : List α), List.Perm (List.foldl (insertByKey key) acc l) (acc ++ l) by
    simpa using h l []
  intro l
  induction l with
  | nil => intro acc; simp
  | cons a t ih =>
    intro acc
    rw [List.foldl_cons]
    exact ((ih _).trans (((insertByKey_perm key acc a).append_right t).trans
      List.perm_middle.symm))

/-- Inserting into a key-sorted list keeps it key-sorted. -/
theorem insertByKey_pairwise {α : Type _} (key : α → String) (l : List α) (x : α)
    (h : l.Pairwise fun a b => strLtB (key b) (key a) = false) :
    (insertByKey key l x).Pairwise fun a b => strLtB (key b) (key a) = false := by
  induction l with
  | nil => simp [insertByKey]
  | cons y ys ih =>
    rw [List.pairwise_cons] at h
    obtain ⟨hy, hys⟩ := h
    unfold insertByKey
    by_cases hlt : strLtB (key x) (key y) = true
    · rw [if_pos hlt]
      refine List.Pairwise.cons ?_ (List.Pairwise.cons hy hys)
      intro z hz
      cases hzx : strLtB (key z) (key x) with
      | false => rfl
      | true =>
        rcases List.mem_cons.mp hz with rfl | hz'
        · exact absurd (strLtB_trans hzx hlt) (by simp [strLtB_irrefl])
        · exact absurd (strLtB_trans hzx hlt) (by simp [hy z hz'])
    · rw [if_neg hlt]
      refine List.Pairwise.cons ?_ (ih hys)
      intro z hz
      have hz' := (insertByKey_perm key ys x).mem_iff.mp hz
      rcases List.mem_cons.mp hz' with rfl | hz''
      · exact Bool.eq_false_iff.mpr hlt
      · exact hy z hz''

/-- The key sort produces a key-sorted list. -/
theorem sortByKey_pairwise {α : Type _} (key : α → String) (l : List α) :
    (sortByKey key l).Pairwise fun a b => strLtB (key b) (key a) = false := by
  suffices h : ∀ (l acc : List α),
      acc.Pairwise (fun a b => strLtB (key b) (key a) = false) →
      (List.foldl (insertByKey key) acc l).Pairwise
        fun a b => strLtB (key b) (key a) = false by
    exact h l [] List.Pairwise.nil
  intro l
  induction l with
  | nil => intro acc h; simpa using h
  | cons a t ih =>
    intro acc h
    rw [List.foldl_cons]
    exact ih _ (insertByKey_pairwise key acc a h)

/-! ## Minimum and maximum of a string list -/

/-- The running-minimum fold: its result is a member and no element of the
list (nor the seed) is smaller. -/
theorem minString_aux (l : List String) : ∀ a : String, ∃ m,
    List.foldl
      (fun acc s =>
        match acc with
        | none => some s
        | some t => some (if strLtB s t then s else t))
      (some a) l = some m ∧
    m ∈ a :: l ∧ strLtB a m = false ∧ ∀ x ∈ l, strLtB x m = false := by
  induction l with
  | nil => intro a; exact ⟨a, rfl, by simp, strLtB_irrefl a, by simp⟩
  | cons s t ih =>
    intro a
    by_cases hsa : strLtB s a = true
    · obtain ⟨m, hm, hmem, hbound, hall⟩ := ih s
      refine ⟨m, ?_, ?_, ?_, ?_⟩
      · rw [List.foldl_cons]
        simpa [hsa] using hm
      · rcases List.mem_cons.mp hmem with rfl | h'
        · simp
        · simp [h']
      · cases ham : strLtB a m with
        | false => rfl
        | true => exact absurd (strLtB_trans hsa ham) (by simp [hbound])
      · intro x hx
        rcases List.mem_cons.mp hx with rfl | hx'
        · exact hbound
        · exact hall x hx'
    · have hsa' : strLtB s a = false := Bool.eq_false_iff.mpr hsa
      obtain ⟨m, hm, hmem, hbound, hall⟩ := ih a
      refine ⟨m, ?_, ?_, hbound, ?_⟩
      · rw [List.foldl_cons]
        simpa [hsa'] using hm
      · rcases List.mem_cons.mp hmem with rfl | h'
        · simp
        · simp [h']
      · intro x hx
        rcases List.mem_cons.mp hx with rfl | hx'
        · cases hsm : strLtB x m with
          | false => rfl
          | true =>
            cases has : strLtB a x with
            | false =>
              have hax : x = a := strLtB_eq_of_not hsa' has
              rw [hax] at hsm
              exact absurd hsm (by simp [hbound])
            | true => exact absurd (strLtB_trans has hsm) (by simp [hbound])
        · exact hall x hx'

/-- The minimum is none exactly on the empty list, and otherwise a member
below which no element lies. -/
theorem minString_spec (l : List String) :
    (minString l = none ↔ l = []) ∧
    ∀ m, minString l = some m → m ∈ l ∧ ∀ x ∈ l, strLtB x m = false := by
  cases l with
  | nil => exact ⟨by simp [minString], by simp [minString]⟩
  | cons a t =>
    obtain ⟨m, hm, hmem, hbound, hall⟩ := minString_aux t a
    have hfold : minString (a :: t) = some m := by
      unfold minString
      rw [List.foldl_cons]
      exact hm
    constructor
    · rw [hfold]; simp
    · intro m' hm'
      rw [hfold] at hm'
      injection hm' with hmm
      subst hmm
      refine ⟨hmem, ?_⟩
      intro x hx
      rcases List.mem_cons.mp hx with rfl | hx'
      · exact hbound
      · exact hall x hx'

/-- The running-maximum fold: its result is a member and is smaller than
neither the seed nor any element of the list. -/
theorem maxString_aux (l : List String) : ∀ a : String, ∃ m,
    List.foldl
      (fun acc s =>
        match acc with
        | none => some s
        | some t => some (if strLtB t s then s else t))
      (some a) l = some m ∧
    m ∈ a :: l ∧ strLtB m a = false ∧ ∀ x ∈ l, strLtB m x = false := by
  induction l with
  | nil => intro a; exact ⟨a, rfl, by simp, strLtB_irrefl a, by simp⟩
  | cons s t ih =>
    intro a
    by_cases has : strLtB a s = true
    · obtain ⟨m, hm, hmem, hbound, hall⟩ := ih s
      refine ⟨m, ?_, ?_, ?_, ?_⟩
      · rw [List.foldl_cons]
        simpa [has] using hm
      · rcases List.mem_cons.mp hmem with rfl | h'
        · simp
        · simp [h']
      · cases hma : strLtB m a with
        | false => rfl
        | true => exact absurd (strLtB_trans hma has) (by simp [hbound])
      · intro x hx
        rcases List.mem_cons.mp hx with rfl | hx'
        · exact hbound
        · exact hall x hx'
    · have has' : strLtB a s = false := Bool.eq_false_iff.mpr has
      obtain ⟨m, hm, hmem, hbound, hall⟩ := ih a
      refine ⟨m, ?_, ?_, hbound, ?_⟩
      · rw [List.foldl_cons]
        simpa [has'] using hm
      · rcases List.mem_cons.mp hmem with rfl | h'
        · simp
        · simp [h']
      · intro x hx
        rcases List.mem_cons.mp hx with rfl | hx'
        · cases hmx : strLtB m x with
          | false => rfl
          | true =>
            cases hxa : strLtB x a with
            | false =>
              have : a = x := strLtB_eq_of_not has' hxa
              rw [← this] at hmx
              exact absurd hmx (by simp [hbound])
            | true => exact absurd (strLtB_trans hmx hxa) (by simp [hbound])
        · exact hall x hx'

/-- The maximum is none exactly on the empty list, and otherwise a member
that is smaller than no element. -/
theorem maxString_spec (l : List String) :
    (maxString l = none ↔ l = []) ∧
    ∀ m, maxString l = some m → m ∈ l ∧ ∀ x ∈ l, strLtB m x = false := by
  cases l with
  | nil => exact ⟨by simp [maxString], by simp [maxString]⟩
  | cons a t =>
    obtain ⟨m, hm, hmem, hbound, hall⟩ := maxString_aux t a
    have hfold : maxString (a :: t) = some m := by
      unfold maxString
      rw [List.foldl_cons]
      exact hm
    constructor
    · rw [hfold]; simp
    · intro m' hm'
      rw [hfold] at hm'
      injection hm' with hmm
      subst hmm
      refine ⟨hmem, ?_⟩
      intro x hx
      rcases List.mem_cons.mp hx with rfl | hx'
      · exact hbound
      · exact hall x hx'

/-- The head of a sorted string list is a member below which no element
lies. -/
theorem sorted_head_min {l : List String}
    (h : l.Pairwise fun a b => strLtB b a = false) :
    ∀ m, l.head? = some m → m ∈ l ∧ ∀ x ∈ l, strLtB x m = false := by
  intro m hm
  cases l with
  | nil => cases hm
  | cons a t =>
    have ham : a = m := by simpa using hm
    subst ham
    rw [List.pairwise_cons] at h
    refine ⟨by simp, ?_⟩
    intro x hx
    rcases List.mem_cons.mp hx with rfl | hx'
    · exact strLtB_irrefl x
    · exact h.1 x hx'

/-- The last element of a sorted string list is a member that is smaller
than no element. -/
theorem sorted_getLast_max {l : List String}
    (h : l.Pairwise fun a b => strLtB b a = false) :
    ∀ m, l.getLast? = some m → m ∈ l ∧ ∀ x ∈ l, strLtB m x = false := by
  induction l with
  | nil => intro m hm; cases hm
  | cons a t ih =>
    intro m hm
    rw [List.pairwise_cons] at h
    cases t with
    | nil =>
      have ham : a = m := by simpa using hm
      subst ham
      refine ⟨by simp, ?_⟩
      intro x hx
      rcases List.mem_cons.mp hx with rfl | hx'
      · exact strLtB_irrefl x
      · cases hx'
    | cons b u =>
      rw [List.getLast?_cons_cons] at hm
      obtain ⟨hmem, hbound⟩ := ih h.2 m hm
      refine ⟨List.mem_cons_of_mem a hmem, ?_⟩
      intro x hx
      rcases List.mem_cons.mp hx with rfl | hx'
      · exact h.1 m hmem
      · exact hbound x hx'

/-! ## C6: createdAt and lastActivity -/

/-- A truthy entry timestamp is the sort key of its entry. -/
theorem tsKey_of_entryTs {e : RawEntry} {s : String} (h : entryTs e = some s) :
    tsKey e = s := by
  unfold entryTs truthyTs at h
  cases hts : e.timestamp with
  | none => rw [hts] at h; simp at h
  | some ts =>
    rw [hts] at h
    by_cases hne : ts = ""
    · simp [hne] at h
    · simp [hne] at h
      unfold tsKey
      rw [hts]
      simp [h]

/-- C6 counterexample: with mixed UTC offsets, createdAt holds the
timestamp whose parsed instant (1704070800) is strictly later than another
message's parsed timestamp (1704067200), so createdAt is not the minimum
of the parsed timestamps — the fold compares raw strings, not parsed
values (and symmetrically for lastActivity). -/
theorem C6_counterexample :
    (process_session_entries 0 [c6a, c6b] "s" "f").created_at =
      some "2023-12-31T20:00:00-05:00" ∧
    (process_session_entries 0 [c6a, c6b] "s" "f").last_activity =
      some "2024-01-01T00:00:00Z" ∧
    parseTimestamp "2023-12-31T20:00:00-05:00" = some 1704070800 ∧
    parseTimestamp "2024-01-01T00:00:00Z" = some 1704067200 ∧
    (1704067200 : Int) < 1704070800 := by
  decide

/-- In the JSONL path, createdAt and lastActivity are the min and max of
the raw timestamp strings of the timestamped entries under the code-point
order. -/
theorem session_created_last_minmax (now : Int) (entries : List RawEntry)
    (sid fp : String) :
    (process_session_entries now entries sid fp).created_at =
      minString (entries.filterMap entryTs) ∧
    (process_session_entries now entries sid fp).last_activity =
      maxString (entries.filterMap entryTs) := by
  have hTpair : ((sortByKey tsKey entries).filterMap entryTs).Pairwise
      (fun a b => strLtB b a = false) := by
    refine List.Pairwise.filterMap entryTs ?_ (sortByKey_pairwise tsKey entries)
    intro e e' hrel s hs t ht
    rw [← tsKey_of_entryTs hs, ← tsKey_of_entryTs ht]
    exact hrel
  have hperm : List.Perm ((sortByKey tsKey entries).filterMap entryTs)
      (entries.filterMap entryTs) := (sortByKey_perm tsKey entries).filterMap entryTs
  have hcre : (process_session_entries now entries sid fp).created_at =
      ((sortByKey tsKey entries).filterMap entryTs).head? := by
    have hfold := foldl_keep_first (fun m : Message => truthyTs m.timestamp)
      (fun acc m =>
        match truthyTs m.timestamp with
        | some ts => if acc = none then some ts else acc
        | none => acc)
      ?_ ((sortByKey tsKey entries).map normalizeEntry)
    · rw [List.filterMap_map] at hfold
      have hcomp : ((fun m : Message => truthyTs m.timestamp) ∘ normalizeEntry) = entryTs :=
        rfl
      rw [hcomp] at hfold
      simpa [process_session_entries] using hfold
    · intro b x
      cases h : truthyTs x.timestamp <;> simp [h]
  have hlast : (process_session_entries now entries sid fp).last_activity =
      ((sortByKey tsKey entries).filterMap entryTs).getLast? := by
    have hfold := foldl_override_opt (fun m : Message => truthyTs m.timestamp)
      (fun acc m =>
        match truthyTs m.timestamp with
        | some ts => some ts
        | none => acc)
      ?_ ((sortByKey tsKey entries).map normalizeEntry) none
    · rw [List.filterMap_map] at hfold
      have hcomp : ((fun m : Message => truthyTs m.timestamp) ∘ normalizeEntry) = entryTs :=
        rfl
      rw [hcomp] at hfold
      rcases hT : ((sortByKey tsKey entries).filterMap entryTs).getLast? with _ | v <;>
        rw [hT] at hfold <;> simp only [] at hfold <;>
        simpa [process_session_entries, hT] using hfold
    · intro b x
      cases h : truthyTs x.timestamp <;> simp [h]
  constructor
  · rw [hcre]
    cases hT : ((sortByKey tsKey entries).filterMap entryTs).head? with
    | none =>
      have hTnil := List.head?_eq_none_iff.mp hT
      have hnil : entries.filterMap entryTs = [] := by
        rw [hTnil] at hperm
        exact (hperm.symm).eq_nil
      rw [(minString_spec _).1.mpr hnil]
    | some m =>
      obtain ⟨hmem, hbound⟩ := sorted_head_min hTpair m hT
      have hmem' : m ∈ entries.filterMap entryTs := hperm.mem_iff.mp hmem
      have hbound' : ∀ x ∈ entries.filterMap entryTs, strLtB x m = false := fun x hx =>
        hbound x (hperm.mem_iff.mpr hx)
      cases hmin : minString (entries.filterMap entryTs) with
      | none =>
        have := (minString_spec _).1.mp hmin
        rw [this] at hmem'
        cases hmem'
      | some m2 =>
        obtain ⟨hmem2, hbound2⟩ := (minString_spec _).2 m2 hmin
        rw [strLtB_eq_of_not (hbound2 m hmem') (hbound' m2 hmem2)]
  · rw [hlast]
    cases hT : ((sortByKey tsKey entries).filterMap entryTs).getLast? with
    | none =>
      have hTnil := List.getLast?_eq_none_iff.mp hT
      have hnil : entries.filterMap entryTs = [] := by
        rw [hTnil] at hperm
        exact (hperm.symm).eq_nil
      rw [(maxString_spec _).1.mpr hnil]
    | some m =>
      obtain ⟨hmem, hbound⟩ := sorted_getLast_max hTpair m hT
      have hmem' : m ∈ entries.filterMap entryTs := hperm.mem_iff.mp hmem
      have hbound' : ∀ x ∈ entries.filterMap entryTs, strLtB m x = false := fun x hx =>
        hbound x (hperm.mem_iff.mpr hx)
      cases hmax : maxString (entries.filterMap entryTs) with
      | none =>
        have := (maxString_spec _).1.mp hmax
        rw [this] at hmem'
        cases hmem'
      | some m2 =>
        obtain ⟨hmem2, hbound2⟩ := (maxString_spec _).2 m2 hmax
        rw [strLtB_eq_of_not (hbound' m2 hmem2) (hbound2 m hmem')]

/-- C6 amended: createdAt and lastActivity of a JSONL-path conversation are
the minimum and maximum of the raw timestamp strings of its timestamped
messages under the lexicographic code-point order (which coincides with
chronological order only when all timestamps share one format and offset);
a conversation with no timestamped message leaves both null.  In the
whole-file JSON path no sorting happens at all: createdAt and lastActivity
are the first and last truthy timestamps in file order. -/
theorem C6_min_max_string_order (now : Int) (entries : List RawEntry) (sid fp : String) :
    ((process_session_entries now entries sid fp).created_at =
      minString (entries.filterMap entryTs) ∧
    (process_session_entries now entries sid fp).last_activity =
      maxString (entries.filterMap entryTs)) ∧
    ∀ (msgs : List JMsg) (cid : String),
      (process_conversation_file now msgs cid fp).created_at =
        (msgs.filterMap fun j => truthyTs j.timestamp).head? ∧
      (process_conversation_file now msgs cid fp).last_activity =
        (msgs.filterMap fun j => truthyTs j.timestamp).getLast? := by
  refine ⟨session_created_last_minmax now entries sid fp, ?_⟩
  intro msgs cid
  constructor
  · have hfold := foldl_keep_first (fun m : Message => truthyTs m.timestamp)
      (fun acc m =>
        match truthyTs m.timestamp with
        | some ts => if acc = none then some ts else acc
        | none => acc)
      ?_ (msgs.map fun m =>
        { role := m.role.getD "unknown"
          content := m.content.getD (.str "")
          timestamp := m.timestamp
          tokens := estimate_tokens (m.content.getD (.str "")) : Message })
    · rw [List.filterMap_map] at hfold
      simpa [process_conversation_file] using hfold
    · intro b x
      cases h : truthyTs x.timestamp <;> simp [h]
  · have hfold := foldl_override_opt (fun m : Message => truthyTs m.timestamp)
      (fun acc m =>
        match truthyTs m.timestamp with
        | some ts => some ts
        | none => acc)
      ?_ (msgs.map fun m =>
        { role := m.role.getD "unknown"
          content := m.content.getD (.str "")
          timestamp := m.timestamp
          tokens := estimate_tokens (m.content.getD (.str "")) : Message }) none
    · rw [List.filterMap_map] at hfold
      rcases hT : ((msgs.filterMap fun j => truthyTs j.timestamp)).getLast? with _ | v
      · rw [show ((fun m : Message => truthyTs m.timestamp) ∘ fun m : JMsg =>
            ({ role := m.role.getD "unknown"
               content := m.content.getD (.str "")
               timestamp := m.timestamp
               tokens := estimate_tokens (m.content.getD (.str "")) } : Message)) =
            (fun j : JMsg => truthyTs j.timestamp) from rfl, hT] at hfold
        simpa [process_conversation_file, hT] using hfold
      · rw [show ((fun m : Message => truthyTs m.timestamp) ∘ fun m : JMsg =>
            ({ role := m.role.getD "unknown"
               content := m.content.getD (.str "")
               timestamp := m.timestamp
               tokens := estimate_tokens (m.content.getD (.str "")) } : Message)) =
            (fun j : JMsg => truthyTs j.timestamp) from rfl, hT] at hfold
        simpa [process_conversation_file, hT] using hfold
    · intro b x
      cases h : truthyTs x.timestamp <;> simp [h]

/-! ## Injectivity of the decimal rendering of line numbers -/

/-- The digit accumulator of Nat.toDigitsCore is an append. -/
theorem toDigitsCore_append (b : Nat) :
    ∀ (fuel n : Nat) (ds : List Char),
      Nat.toDigitsCore b fuel n ds = Nat.toDigitsCore b fuel n [] ++ ds := by
  intro fuel
  induction fuel with
  | zero => intro n ds; rfl
  | succ f ih =>
    intro n ds
    simp only [Nat.toDigitsCore]
    by_cases h : n / b = 0
    · simp [h]
    · simp only [h, if_false]
      rw [ih (n / b) (Nat.digitChar (n % b) :: ds), ih (n / b) [Nat.digitChar (n % b)]]
      simp

/-- Nat.toDigitsCore does not depend on the fuel once it exceeds the
number. -/
theorem toDigitsCore_fuel (b : Nat) (hb : 2 ≤ b) :
    ∀ (n fuel1 fuel2 : Nat), n < fuel1 → n < fuel2 →
      Nat.toDigitsCore b fuel1 n [] = Nat.toDigitsCore b fuel2 n [] := by
  intro n
  induction n using Nat.strongRecOn with
  | ind n ih =>
    intro fuel1 fuel2 h1 h2
    cases fuel1 with
    | zero => omega
    | succ f1 =>
      cases fuel2 with
      | zero => omega
      | succ f2 =>
        simp only [Nat.toDigitsCore]
        by_cases h : n / b = 0
        · simp [h]
        · simp only [h, if_false]
          rw [toDigitsCore_append b f1 (n / b), toDigitsCore_append b f2 (n / b)]
          have hn : 0 < n := by
            rcases Nat.eq_zero_or_pos n with rfl | h0
            · simp at h
            · exact h0
          have hnb : n / b < n := Nat.div_lt_self hn (by omega)
          rw [ih (n / b) hnb f1 f2 (by omega) (by omega)]

/-- Recurrence of the decimal digit list. -/
theorem toDigits_eq (n : Nat) :
    Nat.toDigits 10 n = if n < 10 then [Nat.digitChar n]
      else Nat.toDigits 10 (n / 10) ++ [Nat.digitChar (n % 10)] := by
  unfold Nat.toDigits
  simp only [Nat.toDigitsCore]
  by_cases h : n < 10
  · have h0 : n / 10 = 0 := Nat.div_eq_of_lt h
    simp [h0, h, Nat.mod_eq_of_lt h]
  · have h0 : ¬ n / 10 = 0 := by
      rw [Nat.div_eq_zero_iff (by omega)]
      exact h
    simp only [h0, if_false, h]
    rw [toDigitsCore_append 10 n (n / 10)]
    congr 1
    have hn : 0 < n := by omega
    have hnb : n / 10 < n := Nat.div_lt_self hn (by omega)
    exact toDigitsCore_fuel 10 (by omega) (n / 10) n (n / 10 + 1) hnb (Nat.lt_succ_self _)

/-- The decimal digit list is never empty. -/
theorem toDigits_ne_nil (n : Nat) : Nat.toDigits 10 n ≠ [] := by
  rw [toDigits_eq]
  by_cases h : n < 10 <;> simp [h]

/-- The digit characters of the ten decimal digits are distinct. -/
theorem digitChar_injOn : ∀ a < 10, ∀ b < 10,
    Nat.digitChar a = Nat.digitChar b → a = b := by
  decide

/-- The decimal digit list determines the number. -/
theorem toDigits_injective : ∀ n m : Nat, Nat.toDigits 10 n = Nat.toDigits 10 m → n = m := by
  intro n
  induction n using Nat.strongRecOn with
  | ind n ih =>
    intro m h
    rw [toDigits_eq n, toDigits_eq m] at h
    by_cases hn : n < 10 <;> by_cases hm : m < 10
    · simp only [hn, hm, if_true] at h
      exact digitChar_injOn n hn m hm (by simpa using h)
    · exfalso
      simp only [hn, hm, if_true, if_false] at h
      have hlen := congrArg List.length h
      rw [List.length_append] at hlen
      simp only [List.length_cons, List.length_nil] at hlen
      have h0 : (Nat.toDigits 10 (m / 10)).length = 0 := by omega
      exact toDigits_ne_nil (m / 10) (List.length_eq_zero.mp h0)
    · exfalso
      simp only [hn, hm, if_true, if_false] at h
      have hlen := congrArg List.length h
      rw [List.length_append] at hlen
      simp only [List.length_cons, List.length_nil] at hlen
      have h0 : (Nat.toDigits 10 (n / 10)).length = 0 := by omega
      exact toDigits_ne_nil (n / 10) (List.length_eq_zero.mp h0)
    · simp only [hn, hm, if_false] at h
      obtain ⟨h1, h2⟩ := List.append_inj' h rfl
      have hn0 : 0 < n := by omega
      have hdiv : n / 10 = m / 10 :=
        ih (n / 10) (Nat.div_lt_self hn0 (by omega)) (m / 10) h1
      have hmod : n % 10 = m % 10 :=
        digitChar_injOn (n % 10) (Nat.mod_lt n (by omega)) (m % 10)
          (Nat.mod_lt m (by omega)) (by simpa using h2)
      calc n = 10 * (n / 10) + n % 10 := (Nat.div_add_mod n 10).symm
        _ = 10 * (m / 10) + m % 10 := by rw [hdiv, hmod]
        _ = m := Nat.div_add_mod m 10

/-- The decimal rendering of a natural number determines it. -/
theorem natRepr_injective {n m : Nat} (h : Nat.repr n = Nat.repr m) : n = m := by
  have hd : Nat.toDigits 10 n = Nat.toDigits 10 m := congrArg String.data h
  exact toDigits_injective n m hd

/-- Two synthetic session keys agree only on equal line numbers. -/
theorem sessionKey_inj {i j : Nat}
    (h : "session_" ++ Nat.repr i = "session_" ++ Nat.repr j) : i = j := by
  have hd := congrArg String.data h
  simp only [String.data_append] at hd
  exact natRepr_injective (String.ext (List.append_cancel_left hd))

/-! ## Session grouping: characterization -/

/-- Looking a key up after one addToGroup step: the addressed group gains
the entry at its end, every other group is untouched. -/
theorem lookupGroup_addToGroup (gs : List (String × List RawEntry)) (k0 k : String)
    (e : RawEntry) :
    lookupGroup (addToGroup gs k0 e) k =
      if k0 = k then lookupGroup gs k ++ [e] else lookupGroup gs k := by
  induction gs with
  | nil =>
    by_cases hk : k0 = k
    · simp [addToGroup, lookupGroup, List.find?, hk]
    · simp [addToGroup, lookupGroup, List.find?, hk]
  | cons g rest ih =>
    obtain ⟨k1, es1⟩ := g
    by_cases h10 : k1 = k0
    · subst h10
      by_cases h1k : k1 = k
      · subst h1k
        simp [addToGroup, lookupGroup, List.find?]
      · simp [addToGroup, lookupGroup, List.find?, h1k]
    · by_cases h1k : k1 = k
      · subst h1k
        have hk : ¬ k0 = k1 := fun hc => h10 hc.symm
        simp [addToGroup, lookupGroup, List.find?, h10, hk]
      · simp only [addToGroup, if_neg h10]
        unfold lookupGroup
        rw [List.find?_cons_of_neg _ (by simp [h1k]),
          List.find?_cons_of_neg _ (by simp [h1k])]
        have h2 := ih
        unfold lookupGroup at h2
        exact h2

/-- The group stored under a key collects exactly the entries carrying that
key, in input order. -/
theorem lookupGroup_groupBySession (es : List (Nat × RawEntry)) (k : String) :
    lookupGroup (groupBySession es) k =
      (es.filter fun x => keyOf x = k).map Prod.snd := by
  suffices h : ∀ (es : List (Nat × RawEntry)) (acc : List (String × List RawEntry)),
      lookupGroup (es.foldl (fun a x => addToGroup a (keyOf x) x.2) acc) k =
        lookupGroup acc k ++ (es.filter fun x => keyOf x = k).map Prod.snd by
    have := h es []
    simpa [lookupGroup] using this
  intro es
  induction es with
  | nil => intro acc; simp
  | cons x t ih =>
    intro acc
    rw [List.foldl_cons, ih (addToGroup acc (keyOf x) x.2),
      lookupGroup_addToGroup acc (keyOf x) k x.2]
    by_cases hk : keyOf x = k
    · rw [if_pos hk, List.filter_cons_of_pos (by simp [hk])]
      simp
    · rw [if_neg hk, List.filter_cons_of_neg (by simp [hk])]

/-- Membership in the accumulated key list. -/
theorem mem_sessionKeys_foldl (es : List (Nat × RawEntry)) :
    ∀ (acc : List String) (k : String),
      k ∈ es.foldl (fun ks x => if keyOf x ∈ ks then ks else ks ++ [keyOf x]) acc ↔
        k ∈ acc ∨ ∃ x ∈ es, keyOf x = k := by
  induction es with
  | nil => intro acc k; simp
  | cons x t ih =>
    intro acc k
    rw [List.foldl_cons]
    by_cases hx : keyOf x ∈ acc
    · rw [if_pos hx, ih]
      constructor
      · rintro (h | ⟨y, hy, hk⟩)
        · exact Or.inl h
        · exact Or.inr ⟨y, by simp [hy], hk⟩
      · rintro (h | ⟨y, hy, hk⟩)
        · exact Or.inl h
        · rcases List.mem_cons.mp hy with rfl | hy2
          · exact Or.inl (hk ▸ hx)
          · exact Or.inr ⟨y, hy2, hk⟩
    · rw [if_neg hx, ih]
      constructor
      · rintro (h | ⟨y, hy, hk⟩)
        · rcases List.mem_append.mp h with h2 | h2
          · exact Or.inl h2
          · have h3 : k = keyOf x := by simpa using h2
            exact Or.inr ⟨x, by simp, h3.symm⟩
        · exact Or.inr ⟨y, by simp [hy], hk⟩
      · rintro (h | ⟨y, hy, hk⟩)
        · exact Or.inl (List.mem_append.mpr (Or.inl h))
        · rcases List.mem_cons.mp hy with rfl | hy2
          · exact Or.inl (List.mem_append.mpr (Or.inr (by simp [hk])))
          · exact Or.inr ⟨y, hy2, hk⟩

/-- The accumulated key list has no duplicates. -/
theorem nodup_sessionKeys_foldl (es : List (Nat × RawEntry)) :
    ∀ acc : List String, acc.Nodup →
      (es.foldl (fun ks x => if keyOf x ∈ ks then ks else ks ++ [keyOf x]) acc).Nodup := by
  induction es with
  | nil => intro acc h; simpa using h
  | cons x t ih =>
    intro acc h
    rw [List.foldl_cons]
    by_cases hx : keyOf x ∈ acc
    · rw [if_pos hx]; exact ih acc h
    · rw [if_neg hx]
      refine ih _ ?_
      simp [List.nodup_append, h, hx]

/-- Every session key comes from an entry. -/
theorem mem_sessionKeys (es : List (Nat × RawEntry)) (k : String) :
    k ∈ sessionKeys es ↔ ∃ x ∈ es, keyOf x = k := by
  unfold sessionKeys
  rw [mem_sessionKeys_foldl]
  simp

/-- The session key list has no duplicates. -/
theorem sessionKeys_nodup (es : List (Nat × RawEntry)) : (sessionKeys es).Nodup :=
  nodup_sessionKeys_foldl es [] List.nodup_nil

/-- Adding an entry under a key already present appends it to that group
and leaves the others alone. -/
theorem addToGroup_map_mem (f : String → List RawEntry) (e : RawEntry) :
    ∀ (ks : List String) (k : String), ks.Nodup → k ∈ ks →
      addToGroup (ks.map fun k2 => (k2, f k2)) k e =
        ks.map fun k2 => (k2, if k2 = k then f k2 ++ [e] else f k2) := by
  intro ks
  induction ks with
  | nil => intro k _ hk; cases hk
  | cons k1 kt ih =>
    intro k hnd hk
    rw [List.nodup_cons] at hnd
    by_cases h1 : k1 = k
    · subst h1
      have hcg : ∀ k2 ∈ kt, (k2, if k2 = k1 then f k2 ++ [e] else f k2) = (k2, f k2) := by
        intro k2 hk2
        have hne : ¬ (k2 = k1) := fun hc => hnd.1 (hc ▸ hk2)
        rw [if_neg hne]
      simp only [List.map_cons, addToGroup, if_true]
      congr 1
      exact (List.map_congr_left hcg).symm
    · rcases List.mem_cons.mp hk with rfl | hk2
      · exact absurd rfl h1
      · simp only [List.map_cons, addToGroup, if_neg h1]
        rw [ih k hnd.2 hk2]

/-- Adding an entry under a new key appends a fresh singleton group. -/
theorem addToGroup_map_notMem (f : String → List RawEntry) (e : RawEntry) :
    ∀ (ks : List String) (k : String), k ∉ ks →
      addToGroup (ks.map fun k2 => (k2, f k2)) k e =
        (ks.map fun k2 => (k2, f k2)) ++ [(k, [e])] := by
  intro ks
  induction ks with
  | nil => intro k _; rfl
  | cons k1 kt ih =>
    intro k hk
    have h1 : ¬ k1 = k := fun hc => hk (by simp [hc])
    simp only [List.map_cons, addToGroup, if_neg h1, List.cons_append]
    rw [ih k (fun hc => hk (by simp [hc]))]

/-- The session grouping in closed form: one group per distinct key in
first-occurrence order, each holding exactly the entries with that key in
input order. -/
theorem groupBySession_eq (es : List (Nat × RawEntry)) :
    groupBySession es = (sessionKeys es).map
      fun k => (k, (es.filter fun x => keyOf x = k).map Prod.snd) := by
  induction es using List.reverseRecOn with
  | nil => rfl
  | append_singleton es x ih =>
    have hgrp : groupBySession (es ++ [x]) =
        addToGroup (groupBySession es) (keyOf x) x.2 := by
      unfold groupBySession
      rw [List.foldl_append]
      rfl
    have hkeys : sessionKeys (es ++ [x]) =
        if keyOf x ∈ sessionKeys es then sessionKeys es
        else sessionKeys es ++ [keyOf x] := by
      unfold sessionKeys
      rw [List.foldl_append]
      rfl
    rw [hgrp, hkeys, ih]
    by_cases hmem : keyOf x ∈ sessionKeys es
    · rw [if_pos hmem,
        addToGroup_map_mem _ x.2 (sessionKeys es) (keyOf x) (sessionKeys_nodup es) hmem]
      refine List.map_congr_left fun k hk => ?_
      by_cases hxk : k = keyOf x
      · subst hxk
        rw [if_pos rfl, List.filter_append, List.filter_cons_of_pos (by simp),
          List.filter_nil, List.map_append]
        rfl
      · rw [if_neg hxk, List.filter_append, List.filter_cons_of_neg (by simp [Ne.symm hxk]),
          List.filter_nil, List.append_nil]
    · rw [if_neg hmem,
        addToGroup_map_notMem _ x.2 (sessionKeys es) (keyOf x) hmem, List.map_append]
      have hold : ∀ k ∈ sessionKeys es,
          (fun k2 => (k2, (es.filter fun y => keyOf y = k2).map Prod.snd)) k =
          (fun k2 => (k2, ((es ++ [x]).filter fun y => keyOf y = k2).map Prod.snd)) k := by
        intro k hk
        have hxk : ¬ keyOf x = k := fun hc => hmem (hc ▸ hk)
        simp only
        rw [List.filter_append, List.filter_cons_of_neg (by simp [hxk]), List.filter_nil,
          List.append_nil]
      rw [List.map_congr_left hold]
      have hnew : (es.filter fun y => keyOf y = keyOf x) = [] := by
        rw [List.filter_eq_nil_iff]
        intro y hy
        simp only [decide_eq_true_eq]
        intro hc
        exact hmem ((mem_sessionKeys es (keyOf x)).mpr ⟨y, hy, hc⟩)
      have : ((es ++ [x]).filter fun y => keyOf y = keyOf x).map Prod.snd = [x.2] := by
        rw [List.filter_append, List.filter_cons_of_pos (by simp), List.filter_nil, hnew]
        rfl
      simp only [List.map_cons, List.map_nil, this]

/-! ## C4: session grouping -/

/-- A fold that appends a block per element flattens the per-element
blocks in order. -/
theorem foldl_append_join {α β : Type _} (g : α → List β) (step : List β → α → List β)
    (hstep : ∀ acc x, step acc x = acc ++ g x) (l : List α) :
    ∀ acc : List β, l.foldl step acc = acc ++ (l.map g).flatten := by
  induction l with
  | nil => intro acc; simp
  | cons a t ih =>
    intro acc
    rw [List.foldl_cons, hstep acc a, ih (acc ++ g a)]
    simp

/-- C4 counterexample: both entries carry sessionId s, but coming from two
different files they land in two different Conversations, each holding
only its own message — grouping is per file, so the claim fails across
files. -/
theorem C4_counterexample :
    (∀ f ∈ c4files, ∀ l ∈ f.2, ∀ e, lineEntry l.parsed = some e →
      e.sessionId = some "s") ∧
    (load_conversation_data 0 c4files).map
        (fun c => (c.id, c.messages.map Message.content)) =
      [("s", [.str "a"]), ("s", [.str "b"])] := by
  decide

/-- C4 amended: within one file, two entries with the same effective
session key always land in the same Conversation and entries with
different keys never merge — the JSONL path produces exactly one
conversation per distinct key, in first-occurrence order, built from
exactly the entries carrying that key in line order; across files,
conversations are built per file and concatenated, so equal sessionIds in
different files give separate Conversations. -/
theorem C4_grouping_characterization (now : Int) (lines : List Line) (fp : String)
    (hok : (lines.any fun l => isNonObj l.parsed) = false) :
    process_jsonl_file now lines fp =
      .ok ((sessionKeys (jsonlEntries lines)).map fun k =>
        process_session_entries now
          (((jsonlEntries lines).filter fun x => keyOf x = k).map Prod.snd) k fp) ∧
    ∀ files : List (String × List Line),
      load_conversation_data now files =
        (files.map fun f =>
          match process_jsonl_file now f.2 f.1 with
          | .ok cs => cs
          | .error _ => []).flatten := by
  constructor
  · unfold process_jsonl_file
    rw [hok]
    simp only [Bool.false_eq_true, if_false]
    rw [groupBySession_eq, List.map_map]
    rfl
  · intro files
    unfold load_conversation_data
    rw [foldl_append_join
      (fun f =>
        match process_jsonl_file now f.2 f.1 with
        | .ok cs => cs
        | .error _ => [])
      (fun acc f =>
        match process_jsonl_file now f.2 f.1 with
        | .ok cs => acc ++ cs
        | .error _ => acc)
      ?_ files []]
    · rfl
    · intro acc x
      cases h : process_jsonl_file now x.2 x.1 <;> simp [h]

/-- C4 witness: a single clean one-line file satisfies the
characterization. -/
theorem C4_witness :
    ((c4lines.any fun l => isNonObj l.parsed) = false) ∧
    (process_jsonl_file 0 c4lines "f1" =
      .ok ((sessionKeys (jsonlEntries c4lines)).map fun k =>
        process_session_entries 0
          (((jsonlEntries c4lines).filter fun x => keyOf x = k).map Prod.snd) k "f1") ∧
    ∀ files : List (String × List Line),
      load_conversation_data 0 files =
        (files.map fun f =>
          match process_jsonl_file 0 f.2 f.1 with
          | .ok cs => cs
          | .error _ => []).flatten) :=
  ⟨by decide, C4_grouping_characterization 0 c4lines "f1" (by decide)⟩

/-! ## C10: synthetic per-line session keys -/

/-- C10: an entry lacking a sessionId on line n is keyed
"session_<n>"; synthetic keys of different lines differ, so two
sessionId-less entries on different lines never share a group (hence never
a Conversation); an entry whose explicit sessionId is literally
"session_<i>" carries the same key as a sessionId-less entry of line i and
merges with it; and the group under any key holds exactly the entries
carrying that key. -/
theorem C10_synthetic_session_keys :
    (∀ (n : Nat) (e : RawEntry), e.sessionId = none →
      keyOf (n, e) = "session_" ++ Nat.repr n) ∧
    (∀ (i j : Nat) (ei ej : RawEntry), i ≠ j → ei.sessionId = none →
      ej.sessionId = none → keyOf (i, ei) ≠ keyOf (j, ej)) ∧
    (∀ (i j : Nat) (ei ej : RawEntry), ei.sessionId = none →
      ej.sessionId = some ("session_" ++ Nat.repr i) → keyOf (i, ei) = keyOf (j, ej)) ∧
    (∀ (es : List (Nat × RawEntry)) (k : String),
      lookupGroup (groupBySession es) k = (es.filter fun x => keyOf x = k).map Prod.snd) := by
  refine ⟨?_, ?_, ?_, lookupGroup_groupBySession⟩
  · intro n e h
    simp [keyOf, h]
  · intro i j ei ej hij h1 h2
    simp only [keyOf, h1, h2, Option.getD_none]
    exact fun hc => hij (sessionKey_inj hc)
  · intro i j ei ej h1 h2
    simp [keyOf, h1, h2]

/-- C10 witness: concrete lines 1, 2 and an explicit "session_1". -/
theorem C10_witness :
    c10a.sessionId = none ∧
    c10b.sessionId = some ("session_" ++ Nat.repr 1) ∧
    keyOf (1, c10a) = "session_" ++ Nat.repr 1 ∧
    keyOf (1, c10a) ≠ keyOf (2, c10a) ∧
    keyOf (1, c10a) = keyOf (5, c10b) :=
  ⟨rfl, by decide, C10_synthetic_session_keys.1 1 c10a rfl,
    C10_synthetic_session_keys.2.1 1 2 c10a c10a (by decide) rfl rfl,
    C10_synthetic_session_keys.2.2.1 1 5 c10a c10b rfl (by decide)⟩

end ClaudeUsage
